import Mathlib

/-!
Verification of the entity-resolution and field-normalization engine in
semis_pipeline/processing/cleaning.py.

The Python code is shallowly embedded over Lean strings (String / List Char).
Conventions of the embedding:
- Python character classes are modelled at ASCII scope: regex \w is
  isWordChar (alphanumeric or underscore), \s is Char.isWhitespace,
  str.isupper/str.lower use Char.isUpper/Char.toLower.  All inputs appearing
  in the claims are ASCII (the only non-ASCII characters in the source, the
  mis-encoded bytes in RE_BORN_PREFIX, are modelled literally).
- Python floats are modelled as exact rationals; the fuzzy threshold 0.8 is
  the rational 4/5.
- pandas dataframe rows and Python dicts are modelled as insertion-ordered
  association lists with unique keys, which is exactly the observable
  behaviour of Python dicts (insertion order, update-in-place).
- pd.isna inputs (missing values) map to the empty-string result branch and
  are outside the String domain quantified over here; every claim quantifies
  over strings.
-/

/-- Model of the regex class \w (ASCII scope): letters, digits, underscore. -/
def isWordChar (c : Char) : Bool := c.isAlphanum || c = '_'

/-- Model of the regex class \s and of str.strip's whitespace. -/
def isSpaceChar (c : Char) : Bool := c.isWhitespace

/-- A character is cased (for Python str.isupper) if it is a letter. -/
def isCased (c : Char) : Bool := c.isUpper || c.isLower

/-- Python str.isupper(): at least one cased character and no lowercase one. -/
def pyIsUpper (l : List Char) : Bool :=
  l.any isCased && l.all (fun c => !isCased c || c.isUpper)

/-- Drop leading whitespace (left half of str.strip). -/
def stripLeading (l : List Char) : List Char := l.dropWhile isSpaceChar

/-- Drop trailing whitespace (right half of str.strip). -/
def stripTrailing (l : List Char) : List Char :=
  (l.reverse.dropWhile isSpaceChar).reverse

/-- Python str.strip(). -/
def stripChars (l : List Char) : List Char := stripTrailing (stripLeading l)

/-- Helper for pySplitChars: accumulates the current word (reversed). -/
def splitWsAux : List Char → List Char → List (List Char)
  | [], acc => if acc.isEmpty then [] else [acc.reverse]
  | c :: rest, acc =>
    if isSpaceChar c then
      if acc.isEmpty then splitWsAux rest [] else acc.reverse :: splitWsAux rest []
    else splitWsAux rest (c :: acc)

/-- Python str.split() with no argument: split on whitespace runs, no empties. -/
def pySplitChars (l : List Char) : List (List Char) := splitWsAux l []

/-- Python str.capitalize(): first character uppercased, the rest lowercased. -/
def capWord : List Char → List Char
  | [] => []
  | c :: rest => c.toUpper :: rest.map Char.toLower

/-- The all-caps repair in normalize_name:
" ".join(word.capitalize() for word in s.split()). -/
def capitalizeWords (l : List Char) : List Char :=
  List.intercalate ([' ']) ((pySplitChars l).map capWord)

/-- The apostrophe character (code 39). -/
def apos : Char := Char.ofNat 39

/-- Alternatives of RE_SUFFIXES, in the pattern's order: (jr|sr|ii|iii|iv|v). -/
def suffixAlts : List (List Char) :=
  [['j', 'r'], ['s', 'r'], ['i', 'i'], ['i', 'i', 'i'], ['i', 'v'], ['v']]

/-- Try one alternative of RE_SUFFIXES = \b(jr|sr|ii|iii|iv|v)\.?\b at the
head of l (the word boundary before the match is checked by the caller).
Returns some (k, dotConsumed) when the alternative, the optional dot and the
trailing word boundary succeed, where k + 1 characters of l are consumed.
Matching of the letters is case-insensitive (re.IGNORECASE). -/
def trySuffixAlt (alt : List Char) (l : List Char) : Option (Nat × Bool) :=
  if (l.take alt.length).map Char.toLower = alt then
    match l.drop alt.length with
    | [] => some (alt.length - 1, false)
    | c :: rest2 =>
      if c = '.' then
        match rest2 with
        | c2 :: _ =>
          if isWordChar c2 then some (alt.length, true)
          else some (alt.length - 1, false)
        | [] => some (alt.length - 1, false)
      else if isWordChar c then none
      else some (alt.length - 1, false)
  else none

/-- Try the alternatives of RE_SUFFIXES in the pattern's order. -/
def trySuffixMatchCore (l : List Char) : Option (Nat × Bool) :=
  (trySuffixAlt (['j', 'r']) l).orElse fun _ =>
  (trySuffixAlt (['s', 'r']) l).orElse fun _ =>
  (trySuffixAlt (['i', 'i']) l).orElse fun _ =>
  (trySuffixAlt (['i', 'i', 'i']) l).orElse fun _ =>
  (trySuffixAlt (['i', 'v']) l).orElse fun _ =>
  trySuffixAlt (['v']) l

/-- RE_SUFFIXES.sub("", s): left-to-right scan removing each match.
prevWord records whether the previous character of the original string is a
word character (for the leading \b; all alternatives start with a letter, so
a match can only start where prevWord is false).  The Nat argument is fuel,
one unit per character position; with fuel at least the list's length the
scan covers the whole string (each step consumes at least one character). -/
def suffixSubAux : Nat → List Char → Bool → List Char
  | 0, _, _ => []
  | _ + 1, [], _ => []
  | fuel + 1, c :: rest, prevWord =>
    if prevWord then c :: suffixSubAux fuel rest (isWordChar c)
    else
      match trySuffixMatchCore (c :: rest) with
      | some (k, dotEnd) => suffixSubAux fuel (rest.drop k) (!dotEnd)
      | none => c :: suffixSubAux fuel rest (isWordChar c)

/-- RE_SUFFIXES.sub("", s) at the start of a string (no preceding character,
so the initial word-boundary holds). -/
def suffixSub (l : List Char) : List Char := suffixSubAux l.length l false

/-- Python str.replace(pat, rep) with fuel: replace all non-overlapping
occurrences, left to right.  (Only used with nonempty pat.) -/
def pyReplaceFuel (pat rep : List Char) : Nat → List Char → List Char
  | 0, _ => []
  | _ + 1, [] => []
  | fuel + 1, c :: rest =>
    if (c :: rest).take pat.length = pat then
      rep ++ pyReplaceFuel pat rep fuel (rest.drop (pat.length - 1))
    else c :: pyReplaceFuel pat rep fuel rest

/-- Python str.replace(pat, rep). -/
def pyReplace (pat rep : List Char) (l : List Char) : List Char :=
  pyReplaceFuel pat rep l.length l

/-- The characters RE_PUNCTUATION = [^\w\s'] keeps. -/
def keepChar (c : Char) : Bool := isWordChar c || isSpaceChar c || c = apos

/-- RE_MULTIPLE_SPACES.sub(" ", s): the flag records whether the previous
character was whitespace (so the run has already emitted its single space). -/
def collapseWsAux : List Char → Bool → List Char
  | [], _ => []
  | c :: rest, prevSpace =>
    if isSpaceChar c then
      if prevSpace then collapseWsAux rest true
      else ' ' :: collapseWsAux rest true
    else c :: collapseWsAux rest false

/-- The left-hand side of the single NAME_REPLACEMENTS entry. -/
def onealVariant : List Char := "shaquille oneal".data

/-- The right-hand side of the single NAME_REPLACEMENTS entry. -/
def onealCanonical : List Char := "shaquille o".data ++ apos :: "neal".data

/-- Embedding of normalize_name from cleaning.py, step for step:
strip, all-caps repair, lowercase, RE_SUFFIXES removal, NAME_REPLACEMENTS,
RE_PUNCTUATION removal, whitespace collapse, strip. -/
def normalizeChars (l : List Char) : List Char :=
  let s1 := stripChars l
  let s2 := if pyIsUpper s1 then capitalizeWords s1 else s1
  let s3 := s2.map Char.toLower
  let s4 := suffixSub s3
  let s5 := pyReplace onealVariant onealCanonical s4
  let s6 := s5.filter keepChar
  let s7 := collapseWsAux s6 false
  stripChars s7

/-- Embedding of normalize_name on String. -/
def normalize_name (s : String) : String := ⟨normalizeChars s.data⟩

/-- Python str.split() on String, yielding the token list of a name. -/
def pySplit (s : String) : List String := (pySplitChars s.data).map (fun w => ⟨w⟩)

/-- Count of secondary-name tokens present in a candidate's token set:
sum(1 for part in espn_parts if part in br_parts_set).  Duplicate tokens in
the secondary name are counted once per occurrence, as in the source. -/
def tokenMatches (parts : List String) (pset : List String) : Nat :=
  (parts.filter (fun p => pset.contains p)).length

/-- The candidate loop of fuzzy_name_match, carrying best_match_name and
highest_score.  Candidates with an empty token set are skipped; a candidate
reaching score 1 is returned immediately (short-circuit). -/
def fuzzyLoop (parts : List String) (minScore : ℚ) :
    List (String × List String) → Option String → ℚ → Option String
  | [], best, _ => best
  | (nm, pset) :: rest, best, highest =>
    if pset.isEmpty then fuzzyLoop parts minScore rest best highest
    else
      let m := tokenMatches parts pset
      if (m : ℚ) ≥ minScore then
        let score : ℚ := (m : ℚ) / (parts.length : ℚ)
        if score > highest then
          if score = 1 then some nm
          else fuzzyLoop parts minScore rest (some nm) score
        else fuzzyLoop parts minScore rest best highest
      else fuzzyLoop parts minScore rest best highest

/-- Embedding of fuzzy_name_match.  Floats are modelled as exact rationals;
the default threshold 0.8 is 4/5.  Candidates are (original primary name,
canonical token set) pairs; the Python set is modelled as a token list, of
which only membership and emptiness are consulted. -/
def fuzzy_name_match (espnName : String) (cands : List (String × List String))
    (threshold : ℚ) : Option String :=
  let norm := normalize_name espnName
  if norm = "" then none
  else
    let parts := pySplit norm
    if parts.isEmpty then none
    else fuzzyLoop parts ((parts.length : ℚ) * threshold) cands none (-1)

/-- The optional group ([ÂÀ]\s*)? of RE_BORN_PREFIX: under re.IGNORECASE it
matches one of the four mis-encoded bytes and any following whitespace. -/
def bornGroupDrop (l : List Char) : List Char :=
  match l with
  | [] => []
  | c :: rest =>
    if c = 'Â' ∨ c = 'â' ∨ c = 'À' ∨ c = 'à' then rest.dropWhile isSpaceChar
    else c :: rest

/-- RE_BORN_PREFIX.sub("", s) = removal of the anchored pattern
^in\s*([ÂÀ]\s*)? under re.IGNORECASE: whenever the first two characters
lowercase to i and n they are consumed (no word boundary is required), along
with following whitespace and the optional mis-encoding group. -/
def bornInStrip (l : List Char) : List Char :=
  match l with
  | c1 :: c2 :: rest =>
    if c1.toLower = 'i' ∧ c2.toLower = 'n' then bornGroupDrop (rest.dropWhile isSpaceChar)
    else l
  | _ => l

/-- RE_COMMA_SPACE.sub(", ", s): each comma plus following whitespace run
becomes comma-space.  The flag records that whitespace is still being
absorbed by the previous comma's match. -/
def commaSpaceAux : List Char → Bool → List Char
  | [], _ => []
  | c :: rest, skipWs =>
    if c = ',' then ',' :: ' ' :: commaSpaceAux rest true
    else if skipWs && isSpaceChar c then commaSpaceAux rest true
    else c :: commaSpaceAux rest false

/-- Embedding of format_born_location: strip, RE_BORN_PREFIX removal,
whitespace collapse, comma-space normalization, strip. -/
def format_born_location (s : String) : String :=
  let l1 := stripChars s.data
  let l2 := bornInStrip l1
  let l3 := collapseWsAux l2 false
  let l4 := commaSpaceAux l3 false
  ⟨stripChars l4⟩

/-- MONTH_TO_NUM_MAP from cleaning.py: the twelve month names and the eleven
three-letter abbreviations (may appears only once). -/
def monthMap : List (List Char × List Char) :=
  [ ("january".data, "01".data), ("february".data, "02".data),
    ("march".data, "03".data), ("april".data, "04".data),
    ("may".data, "05".data), ("june".data, "06".data),
    ("july".data, "07".data), ("august".data, "08".data),
    ("september".data, "09".data), ("october".data, "10".data),
    ("november".data, "11".data), ("december".data, "12".data),
    ("jan".data, "01".data), ("feb".data, "02".data), ("mar".data, "03".data),
    ("apr".data, "04".data), ("jun".data, "06".data), ("jul".data, "07".data),
    ("aug".data, "08".data), ("sep".data, "09".data), ("oct".data, "10".data),
    ("nov".data, "11".data), ("dec".data, "12".data) ]

/-- MONTH_TO_NUM_MAP.get(month_name.lower()). -/
def monthLookup (w : List Char) : Option (List Char) :=
  (monthMap.find? (fun p => p.1 = w.map Char.toLower)).map Prod.snd

/-- Match four digits at the head (no end anchor: trailing text is allowed). -/
def matchYear4 (l : List Char) : Option (List Char) :=
  match l with
  | a :: b :: c :: d :: _ =>
    if a.isDigit && b.isDigit && c.isDigit && d.isDigit then some ([a, b, c, d])
    else none
  | _ => none

/-- Match an optional comma, whitespace, and a four-digit year at the head.  The optional comma and the whitespace
star are safely greedy: neither a comma nor whitespace can satisfy \d. -/
def commaSpaceYear (l : List Char) : Option (List Char) :=
  match l with
  | ',' :: r => matchYear4 (r.dropWhile isSpaceChar)
  | _ => matchYear4 (l.dropWhile isSpaceChar)

/-- Match a one-or-two-digit day, optional comma, whitespace and four-digit
year at the head, with the regex engine's
backtracking: the day group greedily takes two digits and falls back to one
when the rest of the pattern fails. -/
def dayYear (l : List Char) : Option (List Char × List Char) :=
  match l with
  | a :: rest =>
    if a.isDigit then
      match rest with
      | b :: rest2 =>
        if b.isDigit then
          match commaSpaceYear rest2 with
          | some y => some ([a, b], y)
          | none => (commaSpaceYear rest).map (fun y => ([a], y))
        else (commaSpaceYear rest).map (fun y => ([a], y))
      | [] => none
    else none
  | [] => none

/-- RE_MONTH_DAY_YEAR.match: a word, whitespace, a one-or-two-digit day, an
optional comma with whitespace, and a four-digit year, anchored at the start.  Shortening the greedy \w+ cannot help: the following \s+ fails on a
word character just as \w+ would have continued, so \w+ is the maximal word
run and must be followed by whitespace. -/
def matchMonthDayYear (l : List Char) :
    Option (List Char × List Char × List Char) :=
  let w := l.takeWhile isWordChar
  if w.isEmpty then none
  else
    let r := l.dropWhile isWordChar
    if (r.takeWhile isSpaceChar).isEmpty then none
    else (dayYear (r.dropWhile isSpaceChar)).map (fun p => (w, p.1, p.2))

/-- RE_YYYY_MM_DD.match: four digits, hyphen, two digits, hyphen, two digits,
anchored at the start. -/
def matchesIso (l : List Char) : Bool :=
  match l with
  | a :: b :: c :: d :: h1 :: e :: f :: h2 :: g :: h :: _ =>
    a.isDigit && b.isDigit && c.isDigit && d.isDigit && h1 = '-' &&
      e.isDigit && f.isDigit && h2 = '-' && g.isDigit && h.isDigit
  | _ => false

/-- Match a one-or-two-digit group followed by a slash at the head, with the
engine's backtracking.  At most one
of the greedy and the fallback parse can reach the slash (a character cannot
be both a digit and a slash), so trying two digits first is exact. -/
def digits12Slash (l : List Char) : Option (List Char × List Char) :=
  match l with
  | a :: b :: c :: r =>
    if a.isDigit then
      if b.isDigit then (if c = '/' then some ([a, b], r) else none)
      else if b = '/' then some ([a], c :: r)
      else none
    else none
  | [a, b] => if a.isDigit && b = '/' then some ([a], ([] : List Char)) else none
  | _ => none

/-- RE_MM_DD_YYYY.match: month digits, slash, day digits, slash, four-digit
year, anchored at the start. -/
def matchMDY (l : List Char) : Option (List Char × List Char × List Char) :=
  match digits12Slash l with
  | none => none
  | some (mm, r1) =>
    match digits12Slash r1 with
    | none => none
    | some (dd, r2) => (matchYear4 r2).map (fun y => (mm, dd, y))

/-- Python str.zfill(2) on a digit group of length one or two. -/
def zfill2 (l : List Char) : List Char := List.replicate (2 - l.length) '0' ++ l

/-- Embedding of standardize_date_format: strip, then the three pattern
attempts in source order; when the first pattern matches but the month word
is not in the table the code falls through to the later checks; when nothing
matches the (stripped) string is returned. -/
def standardize_date_format (s : String) : String :=
  let l := stripChars s.data
  let viaMonth :=
    match matchMonthDayYear l with
    | some (w, d, y) =>
      (monthLookup w).map (fun mn => y ++ '-' :: (mn ++ '-' :: zfill2 d))
    | none => none
  match viaMonth with
  | some r => ⟨r⟩
  | none =>
    if matchesIso l then ⟨l⟩
    else
      match matchMDY l with
      | some (mm, dd, y) => ⟨y ++ '-' :: (zfill2 mm ++ '-' :: zfill2 dd)⟩
      | none => ⟨l⟩

/-- Python str.replace with case-insensitive matching of a lowercase
pattern, as performed by re.sub on a literal pattern with re.IGNORECASE
(fuel version, one unit per character). -/
def pyReplaceCIFuel (pat rep : List Char) : Nat → List Char → List Char
  | 0, _ => []
  | _ + 1, [] => []
  | fuel + 1, c :: rest =>
    if ((c :: rest).take pat.length).map Char.toLower = pat then
      rep ++ pyReplaceCIFuel pat rep fuel (rest.drop (pat.length - 1))
    else c :: pyReplaceCIFuel pat rep fuel rest

/-- re.sub of a literal lowercase pattern under re.IGNORECASE. -/
def pyReplaceCI (pat rep : List Char) (l : List Char) : List Char :=
  pyReplaceCIFuel pat rep l.length l

/-- EXCEL_DATE_TO_HEIGHT_CONVERSIONS in its insertion order. -/
def excelMonths : List (List Char × List Char) :=
  [ ("jan".data, "1".data), ("feb".data, "2".data), ("mar".data, "3".data),
    ("apr".data, "4".data), ("may".data, "5".data), ("jun".data, "6".data),
    ("jul".data, "7".data), ("aug".data, "8".data), ("sep".data, "9".data),
    ("oct".data, "10".data), ("nov".data, "11".data), ("dec".data, "12".data) ]

/-- The loop over EXCEL_DATE_TO_HEIGHT_CONVERSIONS: for each month
abbreviation, first the sub of hyphen-abbr to hyphen-num, then the sub of
abbr-hyphen to num-hyphen, both case-insensitive. -/
def excelFold (l : List Char) : List Char :=
  excelMonths.foldl
    (fun acc p =>
      pyReplaceCI (p.1 ++ ['-']) (p.2 ++ ['-'])
        (pyReplaceCI ('-' :: p.1) ('-' :: p.2) acc))
    l

/-- Try one alternative of a \b(...)\b word-alternation pattern at the head
of l (leading boundary checked by the caller); returns k with k + 1
characters consumed.  Case-insensitive. -/
def tryWordAlt (alt : List Char) (l : List Char) : Option Nat :=
  if (l.take alt.length).map Char.toLower = alt then
    match l.drop alt.length with
    | [] => some (alt.length - 1)
    | c :: _ => if isWordChar c then none else some (alt.length - 1)
  else none

/-- Try the alternatives of a word-alternation pattern in order. -/
def tryAltsMatch (alts : List (List Char)) (l : List Char) : Option Nat :=
  match alts with
  | [] => none
  | a :: rest => (tryWordAlt a l).orElse fun _ => tryAltsMatch rest l

/-- re.sub of \b(alt1|alt2|...)\b with the empty string, scanning left to
right; prevWord tracks the word-boundary state as in suffixSubAux. -/
def wordAltSubAux (alts : List (List Char)) : Nat → List Char → Bool → List Char
  | 0, _, _ => []
  | _ + 1, [], _ => []
  | fuel + 1, c :: rest, prevWord =>
    if prevWord then c :: wordAltSubAux alts fuel rest (isWordChar c)
    else
      match tryAltsMatch alts (c :: rest) with
      | some k => wordAltSubAux alts fuel (rest.drop k) true
      | none => c :: wordAltSubAux alts fuel rest (isWordChar c)

/-- re.sub of a \b-bounded alternation with the empty string. -/
def wordAltSub (alts : List (List Char)) (l : List Char) : List Char :=
  wordAltSubAux alts l.length l false

/-- Alternatives of RE_HEIGHT_MONTH_WORDS, in pattern order. -/
def monthWordAlts : List (List Char) :=
  [ "month".data, "months".data, "mo".data, "mos".data, "m".data ]

/-- Alternatives of RE_HEIGHT_MONTH_ABBRS, in pattern order. -/
def monthAbbrAlts : List (List Char) :=
  [ "jan".data, "feb".data, "mar".data, "apr".data, "may".data, "jun".data,
    "jul".data, "aug".data, "sep".data, "oct".data, "nov".data, "dec".data ]

/-- RE_HEIGHT_FT_IN = (\d+)['\s]*[-\s]*(\d+) attempted at the head of l,
with the engine's backtracking on the first group.  The two character-class
stars are safely greedy: neither class contains a digit, so every position a
shorter class parse could offer the second group holds a class character,
never a digit.  The first group greedily takes the whole digit run; when the
separators are not followed by a digit the engine gives back one digit of
the run, the classes then match empty on that digit and the second group
takes it, which succeeds exactly when the run has length at least two (so
the input 66 yields the groups 6 and 6, and 123 yields 12 and 3, as in the
source).  No deeper give-back is ever reached, because the one-digit
give-back already succeeds. -/
def ftInAt (l : List Char) : Option (List Char × List Char) :=
  let d1 := l.takeWhile Char.isDigit
  if d1.isEmpty then none
  else
    let r1 := l.dropWhile Char.isDigit
    let r2 := r1.dropWhile (fun c => c = apos || isSpaceChar c)
    let r3 := r2.dropWhile (fun c => c = '-' || isSpaceChar c)
    let d2 := r3.takeWhile Char.isDigit
    if d2.isEmpty then
      if 2 ≤ d1.length then
        some (d1.take (d1.length - 1), d1.drop (d1.length - 1))
      else none
    else some (d1, d2)

/-- re.search of RE_HEIGHT_FT_IN: try each start position left to right. -/
def searchFtIn : List Char → Option (List Char × List Char)
  | [] => none
  | c :: rest =>
    match ftInAt (c :: rest) with
    | some g => some g
    | none => searchFtIn rest

/-- Group 1 of RE_HEIGHT_FT_ONLY = (\d+)['\s]*(?:ft|feet)? at the head of l:
only the leading digit run matters, the optional tail cannot fail. -/
def ftOnlyAt (l : List Char) : Option (List Char) :=
  let d1 := l.takeWhile Char.isDigit
  if d1.isEmpty then none else some d1

/-- re.search of RE_HEIGHT_FT_ONLY (group 1). -/
def searchFtOnly : List Char → Option (List Char)
  | [] => none
  | c :: rest =>
    match ftOnlyAt (c :: rest) with
    | some g => some g
    | none => searchFtOnly rest

/-- The pre-pattern processing of standardize_height_imperial: strip, the
Excel month-artifact repairs, then removal of loose month words and month
abbreviations. -/
def heightProcessed (s : String) : List Char :=
  wordAltSub monthAbbrAlts (wordAltSub monthWordAlts (excelFold (stripChars s.data)))

/-- Embedding of standardize_height_imperial: strip, the Excel month-artifact
repairs, removal of loose month words and abbreviations, then the
feet-inches pattern, the feet-only pattern, and as last resort removal of
all whitespace from the processed remainder. -/
def standardize_height_imperial (s : String) : String :=
  let l3 := heightProcessed s
  match searchFtIn l3 with
  | some (f, i) => ⟨f ++ '-' :: i⟩
  | none =>
    match searchFtOnly l3 with
    | some f => ⟨f ++ ['-', '0']⟩
    | none => ⟨stripChars (l3.filter (fun c => !isSpaceChar c))⟩

/-- A dataframe row / Python dict: an insertion-ordered association list of
field name to field value.  Python dict keys are unique; operations below
implement dict semantics (update keeps the original position, insertion
appends at the end). -/
abbrev Rec := List (String × String)

/-- Python d[k] observed as an Option. -/
def dictGet? (d : Rec) (k : String) : Option String :=
  (d.find? (fun p => p.1 = k)).map Prod.snd

/-- Python d[k] with the empty string standing for the value of a key whose
presence the surrounding theorems assume (a missing key would raise KeyError
in the source). -/
def dictGetD (d : Rec) (k : String) : String := (dictGet? d k).getD ("")

/-- Python k in d. -/
def dictMem (d : Rec) (k : String) : Bool := d.any (fun p => p.1 = k)

/-- Python d[k] = v: update in place when the key is present, else append. -/
def dictSet (d : Rec) (k : String) (v : String) : Rec :=
  if dictMem d k then d.map (fun p => if p.1 = k then (k, v) else p)
  else d ++ [(k, v)]

/-- Python del d[k]. -/
def dictErase (d : Rec) (k : String) : Rec := d.filter (fun p => p.1 ≠ k)

/-- The final loop of _create_ordered_merged_player_entry: append each
(key, value) of player_data whose key the ordered entry does not yet hold. -/
def appendMissing (oe : Rec) (pd : Rec) : Rec :=
  pd.foldl (fun acc p => if dictMem acc p.1 then acc else acc ++ [p]) oe

/-- Embedding of _create_ordered_merged_player_entry: copy the primary
record, delete the internal Normalized_Name field if present, write
ESPN_Rank and ESPN_Points from the secondary row, then build the ordered
entry with ESPN_Rank, Name, ESPN_Points first and every remaining field in
player_data order. -/
def create_ordered_merged_player_entry (brPlayerInfo espnRowData : Rec) : Rec :=
  let pd0 := brPlayerInfo
  let pd1 := if dictMem pd0 ("Normalized_Name") then dictErase pd0 ("Normalized_Name") else pd0
  let pd2 := dictSet pd1 ("ESPN_Rank") (dictGetD espnRowData ("RK"))
  let pd3 := dictSet pd2 ("ESPN_Points") (dictGetD espnRowData ("PTS"))
  let oe1 := dictSet ([] : Rec) ("ESPN_Rank") (dictGetD pd3 ("ESPN_Rank"))
  let oe2 := dictSet oe1 ("Name") (dictGetD pd3 ("Name"))
  let oe3 := dictSet oe2 ("ESPN_Points") (dictGetD pd3 ("ESPN_Points"))
  appendMissing oe3 pd3

/-- The canonical key the pipeline computes for a primary row. -/
def normKey (r : Rec) : String := normalize_name (dictGetD r ("Name"))

/-- br_df["Normalized_Name"] = br_df["Name"].apply(normalize_name), for one
row. -/
def addNormalized (r : Rec) : Rec := dictSet r ("Normalized_Name") (normKey r)

/-- Membership in the br_lookup dict (modelled as an association list built
in insertion order). -/
def lkMem (lk : List (String × Rec)) (k : String) : Bool :=
  lk.any (fun p => p.1 = k)

/-- Lookup in br_lookup. -/
def lkGet? (lk : List (String × Rec)) (k : String) : Option Rec :=
  (lk.find? (fun p => p.1 = k)).map Prod.snd

/-- One iteration of the br_lookup construction loop: store the row under
its Normalized_Name when that key is non-empty and not already present. -/
def buildStep (lk : List (String × Rec)) (r : Rec) : List (String × Rec) :=
  let nk := dictGetD r ("Normalized_Name")
  if nk ≠ "" ∧ lkMem lk nk = false then lk ++ [(nk, r)] else lk

/-- The br_lookup construction loop: iterate rows in dataset order, and for
each non-empty Normalized_Name not already present store the row. -/
def buildBrLookup (rows : List Rec) : List (String × Rec) :=
  rows.foldl buildStep []

/-- pandas Series.unique(): deduplicate preserving first-seen order. -/
def uniqueFirst (l : List String) : List String :=
  l.foldl (fun acc x => if acc.contains x then acc else acc ++ [x]) []

/-- The fuzzy candidate preparation: unique primary display names in
first-seen order, each paired with the token set of its canonical form,
skipping names whose canonical form is empty. -/
def fuzzyPrep (rows : List Rec) : List (String × List String) :=
  (uniqueFirst (rows.map (fun r => dictGetD r ("Name")))).filterMap
    (fun nm =>
      let n := normalize_name nm
      if n = "" then none else some (nm, pySplit n))

/-- espn_df["Normalized_ESPN_Name"] = espn_df["Player"].apply(normalize_name),
for one row. -/
def addEspnNormalized (r : Rec) : Rec :=
  dictSet r ("Normalized_ESPN_Name") (normalize_name (dictGetD r ("Player")))

/-- Column-wise formatter application br_df[col] = br_df[col].apply(f); the
source raises KeyError on a missing column, which the theorems below avoid
by quantifying over rows carrying the expected schema. -/
def applyCol (rows : List Rec) (k : String) (f : String → String) : List Rec :=
  rows.map (fun r => dictSet r k (f (dictGetD r k)))

/-- Columns removed from the primary dataframe before merging. -/
def columnsToRemoveBr : List String :=
  ["Pronunciation", "High School", "College", "Draft", "URL"]

/-- br_df.drop(columns=columns_to_remove_br, errors="ignore"). -/
def dropBrColumns (rows : List Rec) : List Rec :=
  rows.map (fun r => r.filter (fun p => (columnsToRemoveBr.contains p.1) = false))

/-- The match resolution for one secondary row: exact lookup by the
precomputed canonical key, else fuzzy match (default threshold 0.8 = 4/5)
followed by re-normalization and a second lookup.  Returns the matched
primary record and whether the match was exact. -/
def resolveRow (lk : List (String × Rec)) (prep : List (String × List String))
    (row : Rec) : Option (Rec × Bool) :=
  let e := dictGetD row ("Normalized_ESPN_Name")
  if e ≠ "" ∧ lkMem lk e = true then (lkGet? lk e).map (fun rec => (rec, true))
  else
    match fuzzy_name_match (dictGetD row ("Player")) prep (4 / 5) with
    | some nm =>
      match lkGet? lk (normalize_name nm) with
      | some rec => some (rec, false)
      | none => none
    | none => none

/-- The unmatched-players entry for one secondary row. -/
def unmatchedEntry (row : Rec) : Rec :=
  [("ESPN_Player", dictGetD row ("Player")), ("ESPN_Rank", dictGetD row ("RK")),
    ("ESPN_Points", dictGetD row ("PTS")),
    ("Normalized_Name", dictGetD row ("Normalized_ESPN_Name"))]

/-- The merge loop over secondary rows, in dataset order, accumulating
(merged rows, unmatched rows, exact count, fuzzy count). -/
def mergeLoop (lk : List (String × Rec)) (prep : List (String × List String))
    (rows : List Rec) : List Rec × List Rec × Nat × Nat :=
  rows.foldl
    (fun acc row =>
      match resolveRow lk prep row with
      | some (rec, isExact) =>
        (acc.1 ++ [create_ordered_merged_player_entry rec row], acc.2.1,
          acc.2.2.1 + (if isExact then 1 else 0),
          acc.2.2.2 + (if isExact then 0 else 1))
      | none => (acc.1, acc.2.1 ++ [unmatchedEntry row], acc.2.2.1, acc.2.2.2))
    ([], [], 0, 0)

/-- The stats record assembled at the end of clean_and_merge_player_data. -/
structure MatchStats where
  total_espn_players : Nat
  total_br_players : Nat
  exact_matches : Nat
  fuzzy_matches : Nat
  total_matches : Nat
  unmatched : Nat
  match_percentage : ℚ
  deriving Repr, DecidableEq

/-- Embedding of clean_and_merge_player_data.  Loading a CSV is modelled by
an Option: none is a failed pd.read_csv (unreadable or malformed file), in
which case the except-branch returns the empty merged list, the empty
unmatched list and the empty stats dict (modelled as none). -/
def clean_and_merge_player_data (brLoad espnLoad : Option (List Rec)) :
    List Rec × List Rec × Option MatchStats :=
  match brLoad, espnLoad with
  | some brRaw, some espnRaw =>
    let br1 := applyCol brRaw ("Born_Location") format_born_location
    let br2 := applyCol br1 ("Born_Date") standardize_date_format
    let br3 := applyCol br2 ("NBA_Debut") standardize_date_format
    let br4 := applyCol br3 ("Height_Imperial") standardize_height_imperial
    let br5 := dropBrColumns br4
    let br6 := br5.map addNormalized
    let lk := buildBrLookup br6
    let prep := fuzzyPrep br6
    let espn1 := espnRaw.map addEspnNormalized
    let r := mergeLoop lk prep espn1
    let stats : MatchStats :=
      { total_espn_players := espn1.length
        total_br_players := br6.length
        exact_matches := r.2.2.1
        fuzzy_matches := r.2.2.2
        total_matches := r.1.length
        unmatched := r.2.1.length
        match_percentage :=
          if espn1.length > 0 then ((r.1.length : ℚ) / (espn1.length : ℚ)) * 100
          else 0 }
    (r.1, r.2.1, some stats)
  | _, _ => ([], [], none)

/-- A date string is recognized when one of the three patterns of
standardize_date_format applies (for the first pattern, only when the month
word is in the table; otherwise the source falls through). -/
def dateRecognized (s : String) : Bool :=
  let l := stripChars s.data
  (match matchMonthDayYear l with
   | some (w, _, _) => (monthLookup w).isSome
   | none => false) ||
  matchesIso l || (matchMDY l).isSome

/-- The token-overlap count a candidate scores against a secondary name. -/
def candMatches (name : String) (c : String × List String) : Nat :=
  tokenMatches (pySplit (normalize_name name)) c.2

/-- Eligibility and score of one candidate, following the spec wording: a
candidate with an empty token set is skipped, one whose match count reaches
the minimum score is eligible with score matches divided by token count. -/
def eligScore (parts : List String) (ms : ℚ) (c : String × List String) : Option ℚ :=
  if c.2.isEmpty then none
  else if (tokenMatches parts c.2 : ℚ) ≥ ms then
    some ((tokenMatches parts c.2 : ℚ) / (parts.length : ℚ))
  else none

/-- Modelled from the spec: track the candidate with the strictly highest
score seen so far, ties keeping the earlier-seen candidate (no
short-circuit). -/
def specPick : List (String × ℚ) → Option String → ℚ → Option String
  | [], best, _ => best
  | (nm, q) :: rest, best, h =>
    if q > h then specPick rest (some nm) q else specPick rest best h

/-- Modelled from the spec (section 4.4): the fuzzy matcher's result stated
as a selection of the strictly-highest-scoring eligible candidate with
earlier-seen tie-breaking, used as the specification side of claim C6. -/
def fuzzySpec (espnName : String) (cands : List (String × List String))
    (threshold : ℚ) : Option String :=
  let norm := normalize_name espnName
  if norm = "" then none
  else
    let parts := pySplit norm
    if parts.isEmpty then none
    else
      specPick
        (cands.filterMap (fun c =>
          (eligScore parts ((parts.length : ℚ) * threshold) c).map (fun q => (c.1, q))))
        none (-1)

/-!
Helper lemmas about the dictionary and lookup model.
-/

theorem appendMissing_cons (oe : Rec) (p : String × String) (pd : Rec) :
    appendMissing oe (p :: pd) =
      appendMissing (if dictMem oe p.1 then oe else oe ++ [p]) pd := rfl

theorem dictMem_append (d e : Rec) (k : String) :
    dictMem (d ++ e) k = (dictMem d k || dictMem e k) := by
  simp [dictMem, List.any_append]

theorem appendMissing_eq (pd : Rec) : ∀ oe : Rec, (pd.map Prod.fst).Nodup →
    appendMissing oe pd = oe ++ pd.filter (fun p => dictMem oe p.1 = false) := by
  induction pd with
  | nil =>
    intro oe _
    simp [appendMissing]
  | cons p pd ih =>
    intro oe hnd
    simp only [List.map_cons, List.nodup_cons] at hnd
    obtain ⟨hp, hnd⟩ := hnd
    rw [appendMissing_cons]
    by_cases hm : dictMem oe p.1
    · rw [if_pos hm, ih oe hnd]
      simp [List.filter_cons, hm]
    · rw [if_neg hm, ih _ hnd]
      have hm' : dictMem oe p.1 = false := Bool.eq_false_iff.mpr hm
      rw [List.filter_cons, if_pos (by simp [hm'])]
      rw [List.append_assoc, List.singleton_append]
      congr 1
      congr 1
      apply List.filter_congr
      intro q hq
      have hne : p.1 ≠ q.1 := fun he => hp (he ▸ List.mem_map_of_mem Prod.fst hq)
      rw [dictMem_append]
      simp [dictMem, hne]

theorem dictErase_of_not_mem (d : Rec) (k : String) (h : dictMem d k = false) :
    dictErase d k = d := by
  rw [dictErase, List.filter_eq_self]
  intro p hp
  simp only [dictMem, List.any_eq_false] at h
  simpa using h p hp

theorem dictMem_erase_false (d : Rec) (k k' : String) (h : dictMem d k = false) :
    dictMem (dictErase d k') k = false := by
  rw [Bool.eq_false_iff] at h ⊢
  intro hc
  apply h
  rw [dictMem, List.any_eq_true] at hc ⊢
  obtain ⟨x, hx, hfx⟩ := hc
  exact ⟨x, (List.mem_filter.mp hx).1, hfx⟩

theorem dictSet_of_not_mem (d : Rec) (k : String) (v : String) (h : dictMem d k = false) :
    dictSet d k v = d ++ [(k, v)] := by
  rw [dictSet, if_neg (by simp [h])]

theorem find?_eq_none_of_dictMem_false (d : Rec) (k : String) (h : dictMem d k = false) :
    d.find? (fun p => p.1 = k) = none := by
  rw [List.find?_eq_none]
  intro p hp
  simp only [dictMem, List.any_eq_false] at h
  exact h p hp

theorem dictGet?_append_right (d e : Rec) (k : String) (h : dictMem d k = false) :
    dictGet? (d ++ e) k = dictGet? e k := by
  simp only [dictGet?, List.find?_append, find?_eq_none_of_dictMem_false d k h,
    Option.none_or]

theorem find?_filter_of_imp (l : List (String × String)) (p q : String × String → Bool)
    (h : ∀ x, p x = true → q x = true) :
    (l.filter q).find? p = l.find? p := by
  induction l with
  | nil => rfl
  | cons x xs ih =>
    by_cases hq : q x
    · rw [List.filter_cons, if_pos hq, List.find?_cons, List.find?_cons]
      by_cases hp : p x <;> simp [hp, ih]
    · have hp : p x = false := by
        cases hpx : p x
        · rfl
        · exact absurd (h x hpx) hq
      rw [List.filter_cons, if_neg hq, List.find?_cons, hp, ih]

theorem dictGet?_append_left_none (d e : Rec) (k : String)
    (h : e.find? (fun p => p.1 = k) = none) :
    dictGet? (d ++ e) k = dictGet? d k := by
  simp only [dictGet?, List.find?_append, h, Option.or_none]

theorem dictGet?_erase_ne (d : Rec) (k k' : String) (h : k ≠ k') :
    dictGet? (dictErase d k') k = dictGet? d k := by
  rw [dictGet?, dictGet?, dictErase, find?_filter_of_imp]
  intro x hx
  simp only [decide_eq_true_eq] at hx ⊢
  rw [hx]
  exact h

theorem dictGetD_congr (d d' : Rec) (k : String) (h : dictGet? d k = dictGet? d' k) :
    dictGetD d k = dictGetD d' k := by
  rw [dictGetD, dictGetD, h]

theorem oeChain (v1 v2 v3 : String) :
    dictSet (dictSet (dictSet [] ("ESPN_Rank") v1) ("Name") v2) ("ESPN_Points") v3 =
      [("ESPN_Rank", v1), ("Name", v2), ("ESPN_Points", v3)] := rfl

theorem not_mem_keys_of_dictMem_false (d : Rec) (k : String) (h : dictMem d k = false) :
    k ∉ d.map Prod.fst := by
  intro hk
  obtain ⟨p, hp, he⟩ := List.mem_map.mp hk
  simp only [dictMem, List.any_eq_false] at h
  exact absurd (by simp [he]) (h p hp)

/-!
Claim C1. The merged-record assembly.  The claim as frozen says rank, name
and metric are all taken from the secondary row; in the code the Name field
of the merged record comes from the matched primary record (the secondary
row only contributes RK and PTS), so the claim is corrected to that.
-/

/-- C1 counterexample: with a primary record named LeBron James matched to a
secondary row whose display name is LEBRON JAMES, the merged record's Name
field holds the primary record's name, not the secondary row's name. -/
theorem create_entry_name_cex :
    create_ordered_merged_player_entry
        ([("Name", "LeBron James"), ("Position", "F")])
        ([("RK", "1"), ("Player", "LEBRON JAMES"), ("PTS", "38652")]) =
      [("ESPN_Rank", "1"), ("Name", "LeBron James"), ("ESPN_Points", "38652"),
        ("Position", "F")] ∧
    dictGet? (create_ordered_merged_player_entry
        ([("Name", "LeBron James"), ("Position", "F")])
        ([("RK", "1"), ("Player", "LEBRON JAMES"), ("PTS", "38652")])) ("Name")
      ≠ some ("LEBRON JAMES") := by decide

/-- C1 (amended): for every primary record with pairwise-distinct field names
and no ESPN_Rank or ESPN_Points field, the merged entry is the rank from the
secondary row, the name from the matched primary record, the metric from the
secondary row, and then the remaining primary fields in the primary record's
original order, skipping the internal normalization field and any field
already placed. -/
theorem create_entry_ordering (br espn : Rec)
    (hnd : (br.map Prod.fst).Nodup)
    (hrk : dictMem br ("ESPN_Rank") = false)
    (hpts : dictMem br ("ESPN_Points") = false) :
    create_ordered_merged_player_entry br espn =
      ("ESPN_Rank", dictGetD espn ("RK")) ::
      ("Name", dictGetD br ("Name")) ::
      ("ESPN_Points", dictGetD espn ("PTS")) ::
      br.filter (fun p => p.1 ≠ "Normalized_Name" ∧ p.1 ≠ "Name" ∧
        p.1 ≠ "ESPN_Rank" ∧ p.1 ≠ "ESPN_Points") := by
  have hpd1 : (if dictMem br ("Normalized_Name") then dictErase br ("Normalized_Name") else br)
      = dictErase br ("Normalized_Name") := by
    by_cases hm : dictMem br ("Normalized_Name")
    · rw [if_pos hm]
    · rw [if_neg hm, dictErase_of_not_mem br _ (Bool.eq_false_iff.mpr hm)]
  have hrkE : dictMem (dictErase br ("Normalized_Name")) ("ESPN_Rank") = false :=
    dictMem_erase_false br _ _ hrk
  have hptsE : dictMem (dictErase br ("Normalized_Name")) ("ESPN_Points") = false :=
    dictMem_erase_false br _ _ hpts
  simp only [create_ordered_merged_player_entry, hpd1]
  have hpd3 : dictSet (dictSet (dictErase br ("Normalized_Name")) ("ESPN_Rank")
        (dictGetD espn ("RK"))) ("ESPN_Points") (dictGetD espn ("PTS"))
      = dictErase br ("Normalized_Name") ++
        [("ESPN_Rank", dictGetD espn ("RK")), ("ESPN_Points", dictGetD espn ("PTS"))] := by
    rw [dictSet_of_not_mem _ _ _ hrkE,
      dictSet_of_not_mem _ _ _ (by rw [dictMem_append, hptsE]; rfl),
      List.append_assoc]
    rfl
  rw [hpd3]
  set brE := dictErase br ("Normalized_Name") with hbrE
  have hv1 : dictGetD (brE ++ [("ESPN_Rank", dictGetD espn ("RK")),
      ("ESPN_Points", dictGetD espn ("PTS"))]) ("ESPN_Rank") = dictGetD espn ("RK") := by
    rw [dictGetD, dictGet?_append_right _ _ _ hrkE]
    rfl
  have hv3 : dictGetD (brE ++ [("ESPN_Rank", dictGetD espn ("RK")),
      ("ESPN_Points", dictGetD espn ("PTS"))]) ("ESPN_Points") = dictGetD espn ("PTS") := by
    rw [dictGetD, dictGet?_append_right _ _ _ hptsE]
    rfl
  have hget : dictGet? (brE ++ [("ESPN_Rank", dictGetD espn ("RK")),
      ("ESPN_Points", dictGetD espn ("PTS"))]) ("Name") = dictGet? br ("Name") := by
    rw [dictGet?_append_left_none brE
        [("ESPN_Rank", dictGetD espn ("RK")), ("ESPN_Points", dictGetD espn ("PTS"))]
        ("Name") (by rfl), hbrE, dictGet?_erase_ne]
    decide
  have hv2 : dictGetD (brE ++ [("ESPN_Rank", dictGetD espn ("RK")),
      ("ESPN_Points", dictGetD espn ("PTS"))]) ("Name") = dictGetD br ("Name") :=
    dictGetD_congr _ _ _ hget
  rw [hv1, hv2, hv3, oeChain]
  have hnd3 : (((brE ++ [("ESPN_Rank", dictGetD espn ("RK")),
      ("ESPN_Points", dictGetD espn ("PTS"))]).map Prod.fst)).Nodup := by
    rw [List.map_append, List.nodup_append]
    refine ⟨List.Nodup.sublist (List.Sublist.map Prod.fst (List.filter_sublist br)) hnd,
      by simp, ?_⟩
    intro k hk hk2
    simp only [List.map_cons, List.map_nil, List.mem_cons, List.not_mem_nil, or_false] at hk2
    rcases hk2 with h' | h'
    · subst h'
      exact not_mem_keys_of_dictMem_false _ _ hrkE hk
    · subst h'
      exact not_mem_keys_of_dictMem_false _ _ hptsE hk
  rw [appendMissing_eq _ _ hnd3, List.filter_append]
  have hf2 : List.filter (fun p => dictMem [("ESPN_Rank", dictGetD espn ("RK")),
      ("Name", dictGetD br ("Name")), ("ESPN_Points", dictGetD espn ("PTS"))] p.1 = false)
      [("ESPN_Rank", dictGetD espn ("RK")), ("ESPN_Points", dictGetD espn ("PTS"))] = [] := rfl
  rw [hf2, List.append_nil, hbrE, dictErase, List.filter_filter]
  simp only [List.cons_append, List.nil_append, List.cons.injEq, true_and]
  apply List.filter_congr
  intro q hq
  by_cases h1 : q.1 = ("Normalized_Name") <;> by_cases h2 : q.1 = ("Name") <;>
    by_cases h3 : q.1 = ("ESPN_Rank") <;> by_cases h4 : q.1 = ("ESPN_Points") <;>
    simp [dictMem, h1, h2, h3, h4, eq_comm]

/-- C1 witness: the amended ordering theorem applied to the LeBron James
example record pair, with all hypotheses discharged by computation. -/
theorem create_entry_ordering_witness :
    ((([("Name", "LeBron James"), ("Position", "F")] : Rec).map Prod.fst).Nodup ∧
      dictMem ([("Name", "LeBron James"), ("Position", "F")]) ("ESPN_Rank") = false ∧
      dictMem ([("Name", "LeBron James"), ("Position", "F")]) ("ESPN_Points") = false) ∧
    create_ordered_merged_player_entry
        ([("Name", "LeBron James"), ("Position", "F")])
        ([("RK", "1"), ("Player", "LEBRON JAMES"), ("PTS", "38652")]) =
      ("ESPN_Rank", dictGetD ([("RK", "1"), ("Player", "LEBRON JAMES"), ("PTS", "38652")]) ("RK")) ::
      ("Name", dictGetD ([("Name", "LeBron James"), ("Position", "F")]) ("Name")) ::
      ("ESPN_Points", dictGetD ([("RK", "1"), ("Player", "LEBRON JAMES"), ("PTS", "38652")]) ("PTS")) ::
      ([("Name", "LeBron James"), ("Position", "F")] : Rec).filter
        (fun p => p.1 ≠ "Normalized_Name" ∧ p.1 ≠ "Name" ∧
          p.1 ≠ "ESPN_Rank" ∧ p.1 ≠ "ESPN_Points") :=
  ⟨⟨by decide, by decide, by decide⟩,
    create_entry_ordering _ _ (by decide) (by decide) (by decide)⟩

/-!
Claim C3. Load-failure semantics of the merge engine.
-/

/-- C3: if either input dataset fails to load (a none load result), the
engine returns the empty merged list, the empty unmatched list and the empty
stats record; the embedding is a total function, so no exception escapes. -/
theorem load_failure_returns_empty (brLoad espnLoad : Option (List Rec))
    (h : brLoad = none ∨ espnLoad = none) :
    clean_and_merge_player_data brLoad espnLoad = ([], [], none) := by
  rcases h with h | h
  · subst h
    cases espnLoad <;> rfl
  · subst h
    cases brLoad <;> rfl

/-- C3 witness: the load-failure theorem applied to a failed primary load
paired with a successful empty secondary load. -/
theorem load_failure_returns_empty_witness :
    ((none : Option (List Rec)) = none ∨ (some ([] : List Rec)) = none) ∧
    clean_and_merge_player_data none (some ([] : List Rec)) = ([], [], none) :=
  ⟨Or.inl rfl, load_failure_returns_empty none (some []) (Or.inl rfl)⟩

/-!
Claim C8. The height formatter.  The concrete repairs hold; the final clause
of the claim says the fallback returns the input with whitespace stripped,
but the source returns the processed remainder (after the month-token
removals) with whitespace removed, so the claim is corrected to that.
-/

/-- C8 counterexample: for the input m (a month-word token, containing no
digits, so neither height pattern matches) the formatter returns the empty
string, not the input with its whitespace stripped. -/
theorem standardize_height_input_cex :
    searchFtIn ("m").data = none ∧ searchFtOnly ("m").data = none ∧
    standardize_height_imperial ("m") = "" ∧ ("m" : String) ≠ "" := by decide

/-- C8 (amended): the height formatter repairs the spreadsheet month-name
artifact and normalizes feet-inches values; the feet-inches pattern
backtracks on a lone digit run, splitting it into all digits but the last
and the last digit; and whenever neither the feet-inches nor the feet-only
pattern matches the processed remainder it returns that remainder with all
whitespace removed; it is a total function. -/
theorem standardize_height_spec :
    standardize_height_imperial ("6-Jun") = "6-6" ∧
    standardize_height_imperial ("6-6") = "6-6" ∧
    standardize_height_imperial ("6") = "6-0" ∧
    standardize_height_imperial ("66") = "6-6" ∧
    standardize_height_imperial ("10") = "1-0" ∧
    ∀ s : String, searchFtIn (heightProcessed s) = none →
      searchFtOnly (heightProcessed s) = none →
      standardize_height_imperial s =
        ⟨stripChars ((heightProcessed s).filter (fun c => !isSpaceChar c))⟩ := by
  refine ⟨by decide, by decide, by decide, by decide, by decide, ?_⟩
  intro s h1 h2
  simp only [standardize_height_imperial, h1, h2]

/-- C8 witness: the amended fallback conjunct applied to the concrete input
x, whose processed remainder has no digits. -/
theorem standardize_height_spec_witness :
    searchFtIn (heightProcessed ("x")) = none ∧
    searchFtOnly (heightProcessed ("x")) = none ∧
    standardize_height_imperial ("x") =
      ⟨stripChars ((heightProcessed ("x")).filter (fun c => !isSpaceChar c))⟩ :=
  ⟨by decide, by decide,
    standardize_height_spec.2.2.2.2.2 ("x") (by decide) (by decide)⟩

/-!
Claim C9. The match-percentage formula.
-/

/-- C9: for every successfully loaded pair of datasets, the stats record's
match percentage is the merged-record count divided by the secondary row
count times 100, and 0 when the secondary dataset is empty; in particular
7 matched of 10 secondary rows gives exactly 70. -/
theorem match_percentage_formula (br espn : List Rec) :
    ∀ st : MatchStats,
      (clean_and_merge_player_data (some br) (some espn)).2.2 = some st →
      (st.match_percentage =
        if espn.length = 0 then 0
        else ((clean_and_merge_player_data (some br) (some espn)).1.length : ℚ)
          / (espn.length : ℚ) * 100) ∧
      (espn.length = 10 →
        (clean_and_merge_player_data (some br) (some espn)).1.length = 7 →
        st.match_percentage = 70) := by
  intro st hst
  simp only [clean_and_merge_player_data, List.length_map, Option.some.injEq] at hst ⊢
  subst hst
  constructor
  · by_cases h0 : espn.length = 0
    · simp [h0]
    · have hp : 0 < espn.length := Nat.pos_of_ne_zero h0
      simp only [h0, if_false, if_neg h0, gt_iff_lt, if_pos hp]
  · intro h10 h7
    rw [h7, h10]
    norm_num

/-- C9 witness: the formula theorem applied to the empty dataset pair, whose
stats record reports a match percentage of 0. -/
theorem match_percentage_formula_witness :
    (clean_and_merge_player_data (some ([] : List Rec)) (some ([] : List Rec))).2.2
        = some (MatchStats.mk 0 0 0 0 0 0 0) ∧
    (MatchStats.mk 0 0 0 0 0 0 0).match_percentage =
      (if ([] : List Rec).length = 0 then (0 : ℚ)
       else ((clean_and_merge_player_data (some ([] : List Rec))
           (some ([] : List Rec))).1.length : ℚ) / (([] : List Rec).length : ℚ) * 100) :=
  ⟨rfl, (match_percentage_formula [] [] (MatchStats.mk 0 0 0 0 0 0 0) rfl).1⟩

/-!
Claim C10. The location formatter strips a leading in by string position,
not by whole token.
-/

theorem notSpace_of_toLower_i (c : Char) (h : c.toLower = 'i') : isSpaceChar c = false := by
  by_contra hs
  rw [Bool.not_eq_false] at hs
  have h4 : ((c = ' ' ∨ c = '\t') ∨ c = '\x0d') ∨ c = '\n' := by
    simpa [isSpaceChar, Char.isWhitespace] using hs
  rcases h4 with ((h' | h') | h') | h' <;> subst h' <;> exact absurd h (by decide)

theorem notSpace_of_toLower_n (c : Char) (h : c.toLower = 'n') : isSpaceChar c = false := by
  by_contra hs
  rw [Bool.not_eq_false] at hs
  have h4 : ((c = ' ' ∨ c = '\t') ∨ c = '\x0d') ∨ c = '\n' := by
    simpa [isSpaceChar, Char.isWhitespace] using hs
  rcases h4 with ((h' | h') | h') | h' <;> subst h' <;> exact absurd h (by decide)

theorem dropWhile_append_cons_notp (p : Char → Bool) (a : List Char) (c : Char)
    (b : List Char) (hc : p c = false) :
    List.dropWhile p (a ++ c :: b) = List.dropWhile p a ++ c :: b := by
  induction a with
  | nil => simp [List.dropWhile_cons, hc]
  | cons x xs ih =>
    simp only [List.cons_append, List.dropWhile_cons]
    by_cases hx : p x <;> simp [hx, ih]

theorem stripChars_cons_cons (c1 c2 : Char) (rest : List Char)
    (h1 : isSpaceChar c1 = false) (h2 : isSpaceChar c2 = false) :
    stripChars (c1 :: c2 :: rest) = c1 :: c2 :: stripTrailing rest := by
  simp only [stripChars, stripLeading, List.dropWhile_cons, h1, Bool.false_eq_true,
    if_false, stripTrailing, List.reverse_cons]
  rw [List.append_assoc]
  simp only [List.singleton_append]
  rw [dropWhile_append_cons_notp isSpaceChar rest.reverse c2 [c1] h2]
  simp [List.reverse_append]

/-- C10: for every location string whose first two characters (after the
initial strip) lowercase to i and n, those two characters are consumed by
the born-prefix rule even inside a longer word, and the result is fully
determined by the remaining characters; in particular Indiana, USA becomes
diana, USA. -/
theorem born_leading_in_by_chars :
    format_born_location ("Indiana, USA") = "diana, USA" ∧
    ∀ (c1 c2 : Char) (rest : List Char), c1.toLower = 'i' → c2.toLower = 'n' →
      format_born_location ⟨c1 :: c2 :: rest⟩ =
        ⟨stripChars (commaSpaceAux (collapseWsAux
          (bornGroupDrop ((stripTrailing rest).dropWhile isSpaceChar)) false) false)⟩ := by
  refine ⟨by decide, ?_⟩
  intro c1 c2 rest h1 h2
  have hs1 := notSpace_of_toLower_i c1 h1
  have hs2 := notSpace_of_toLower_n c2 h2
  simp only [format_born_location]
  rw [stripChars_cons_cons c1 c2 rest hs1 hs2]
  simp only [bornInStrip, h1, h2, and_self, if_pos]

/-- C10 witness: the by-character stripping applied to the decomposition of
Indiana, USA into I, n and the remainder. -/
theorem born_leading_in_by_chars_witness :
    ('I').toLower = 'i' ∧ ('n').toLower = 'n' ∧
    format_born_location ⟨'I' :: 'n' :: ("diana, USA").data⟩ =
      ⟨stripChars (commaSpaceAux (collapseWsAux
        (bornGroupDrop ((stripTrailing ("diana, USA").data).dropWhile isSpaceChar)) false) false)⟩ :=
  ⟨by decide, by decide,
    born_leading_in_by_chars.2 'I' 'n' (("diana, USA").data) (by decide) (by decide)⟩

/-!
Claim C4. First-seen-wins construction of the exact-match index, and lemmas
about the lookup association list.
-/

theorem lkGet?_eq_none_of_not_mem (lk : List (String × Rec)) (k : String)
    (h : lkMem lk k = false) : lkGet? lk k = none := by
  rw [lkGet?, List.find?_eq_none.mpr]
  · rfl
  · intro p hp
    simp only [lkMem, List.any_eq_false] at h
    exact h p hp

theorem lkGet?_append_single_ne (lk : List (String × Rec)) (k k' : String) (r : Rec)
    (h : k' ≠ k) : lkGet? (lk ++ [(k', r)]) k = lkGet? lk k := by
  simp only [lkGet?, List.find?_append]
  have hn : List.find? (fun p => p.1 = k) [(k', r)] = none := by
    simp [List.find?_cons, h]
  rw [hn, Option.or_none]

theorem lkGet?_append_single_self (lk : List (String × Rec)) (k : String) (r : Rec)
    (hm : lkMem lk k = false) : lkGet? (lk ++ [(k, r)]) k = some r := by
  simp only [lkGet?, List.find?_append]
  rw [List.find?_eq_none.mpr, Option.none_or]
  · simp [List.find?_cons]
  · intro p hp
    simp only [lkMem, List.any_eq_false] at hm
    exact hm p hp

theorem lkGet?_isSome_of_mem (lk : List (String × Rec)) (k : String)
    (hm : lkMem lk k = true) : ∃ v, lkGet? lk k = some v := by
  cases hfind : List.find? (fun p => p.1 = k) lk with
  | some q => exact ⟨q.2, by rw [lkGet?, hfind]; rfl⟩
  | none =>
    rw [List.find?_eq_none] at hfind
    simp only [lkMem, List.any_eq_true] at hm
    obtain ⟨p, hp, hpk⟩ := hm
    exact absurd hpk (hfind p hp)

theorem buildFold_get (k : String) (hk : k ≠ "") :
    ∀ (rows : List Rec) (lk : List (String × Rec)),
      lkGet? (rows.foldl buildStep lk) k =
        (lkGet? lk k).or
          ((rows.filter (fun r => dictGetD r ("Normalized_Name") = k)).head?) := by
  intro rows
  induction rows with
  | nil =>
    intro lk
    simp [Option.or_none]
  | cons r rest ih =>
    intro lk
    rw [List.foldl_cons, List.filter_cons]
    by_cases hc : dictGetD r ("Normalized_Name") = k
    · rw [if_pos (by simp [hc])]
      by_cases hm : lkMem lk k
      · have hstep : buildStep lk r = lk := by
          rw [buildStep]
          simp only [hc]
          rw [if_neg (by simp [hm])]
        rw [hstep, ih lk]
        obtain ⟨v, hv⟩ := lkGet?_isSome_of_mem lk k hm
        rw [hv]
        rfl
      · have hm' : lkMem lk k = false := Bool.eq_false_iff.mpr hm
        have hstep : buildStep lk r = lk ++ [(k, r)] := by
          rw [buildStep]
          simp only [hc]
          rw [if_pos ⟨hk, hm'⟩]
        rw [hstep, ih _]
        rw [lkGet?_append_single_self lk k r hm', lkGet?_eq_none_of_not_mem lk k hm']
        rfl
    · rw [if_neg (by simp [hc])]
      rw [buildStep]
      by_cases hins : dictGetD r ("Normalized_Name") ≠ "" ∧
          lkMem lk (dictGetD r ("Normalized_Name")) = false
      · rw [if_pos hins, ih _,
          lkGet?_append_single_ne lk k (dictGetD r ("Normalized_Name")) r hc]
      · rw [if_neg hins, ih lk]

theorem buildFold_keys : ∀ (rows : List Rec) (lk : List (String × Rec)),
    (∀ e ∈ lk, e.1 ≠ "") → ∀ e ∈ rows.foldl buildStep lk, e.1 ≠ "" := by
  intro rows
  induction rows with
  | nil =>
    intro lk h
    simpa using h
  | cons r rest ih =>
    intro lk h
    rw [List.foldl_cons]
    apply ih
    rw [buildStep]
    by_cases hins : dictGetD r ("Normalized_Name") ≠ "" ∧
        lkMem lk (dictGetD r ("Normalized_Name")) = false
    · rw [if_pos hins]
      intro e he
      rcases List.mem_append.mp he with he' | he'
      · exact h e he'
      · simp only [List.mem_singleton] at he'
        subst he'
        exact hins.1
    · rw [if_neg hins]
      exact h

theorem find?_map_update (d : Rec) (k : String) (v : String) (hm : dictMem d k = true) :
    (d.map (fun p => if p.1 = k then (k, v) else p)).find? (fun p => p.1 = k) = some (k, v) := by
  induction d with
  | nil => simp [dictMem] at hm
  | cons p rest ih =>
    by_cases hp : p.1 = k
    · simp [List.map_cons, hp, List.find?_cons]
    · have hm' : dictMem rest k = true := by
        rw [dictMem, List.any_cons] at hm
        cases h9 : (decide (p.1 = k)) with
        | true => exact absurd (of_decide_eq_true h9) hp
        | false =>
          rw [h9, Bool.false_or] at hm
          exact hm
      simp only [List.map_cons, if_neg hp]
      rw [List.find?_cons_of_neg _ (by simpa using hp)]
      exact ih hm'

theorem dictGet?_set_self (d : Rec) (k v : String) : dictGet? (dictSet d k v) k = some v := by
  rw [dictSet]
  by_cases hm : dictMem d k
  · rw [if_pos hm, dictGet?, find?_map_update d k v hm]
    rfl
  · rw [if_neg hm, dictGet?_append_right _ _ _ (Bool.eq_false_iff.mpr hm)]
    simp [dictGet?, List.find?_cons]

theorem dictGetD_set_self (d : Rec) (k v : String) : dictGetD (dictSet d k v) k = v := by
  rw [dictGetD, dictGet?_set_self]
  rfl

/-- C4: the exact-match index obeys first-seen-wins: for every primary row
list and non-empty canonical key, the value retrievable from the index under
that key is exactly the first row (in dataset order) whose name normalizes
to that key (with the Normalized_Name column added), so later duplicates are
not retrievable; and no entry of the index has an empty key. -/
theorem buildBrLookup_first_seen (rows : List Rec) (k : String) (hk : k ≠ "") :
    lkGet? (buildBrLookup (rows.map addNormalized)) k =
      ((rows.filter (fun r => normKey r = k)).head?).map addNormalized ∧
    ∀ e ∈ buildBrLookup (rows.map addNormalized), e.1 ≠ "" := by
  constructor
  · rw [buildBrLookup, buildFold_get k hk (rows.map addNormalized) []]
    rw [show lkGet? [] k = none from rfl, Option.none_or]
    rw [List.filter_map addNormalized rows, List.head?_map]
    have hfd : List.filter ((fun r => decide (dictGetD r ("Normalized_Name") = k)) ∘ addNormalized) rows
        = List.filter (fun r => decide (normKey r = k)) rows := by
      apply List.filter_congr
      intro r _
      simp only [Function.comp_apply]
      rw [addNormalized, dictGetD_set_self]
    rw [hfd]
  · exact buildFold_keys (rows.map addNormalized) [] (by simp)

/-- C4 witness: two primary rows normalizing to the same key lebron james;
the index retrieves the first row only. -/
theorem buildBrLookup_first_seen_witness :
    ("lebron james" : String) ≠ "" ∧
    lkGet? (buildBrLookup (([[("Name", "LeBron James"), ("Pos", "F")],
        [("Name", "LEBRON JAMES"), ("Pos", "G")]] : List Rec).map addNormalized))
        ("lebron james") =
      ((([[("Name", "LeBron James"), ("Pos", "F")],
        [("Name", "LEBRON JAMES"), ("Pos", "G")]] : List Rec).filter
          (fun r => normKey r = "lebron james")).head?).map addNormalized :=
  ⟨by decide,
    (buildBrLookup_first_seen
      ([[("Name", "LeBron James"), ("Pos", "F")], [("Name", "LEBRON JAMES"), ("Pos", "G")]])
      ("lebron james") (by decide)).1⟩

/-!
Claims C5 and C6. The fuzzy matcher: threshold boundary behaviour,
short-circuit, and the highest-score selection rule.
-/

theorem fuzzyLoop_all_reject (parts : List String) (ms : ℚ) :
    ∀ (cands : List (String × List String)) (best : Option String) (h : ℚ),
      (∀ c ∈ cands, ((tokenMatches parts c.2 : ℚ) < ms)) →
      fuzzyLoop parts ms cands best h = best := by
  intro cands
  induction cands with
  | nil =>
    intro best h _
    rfl
  | cons c rest ih =>
    intro best h hall
    obtain ⟨nm, pset⟩ := c
    simp only [fuzzyLoop]
    by_cases he : pset.isEmpty
    · rw [if_pos he]
      exact ih best h (fun c hc => hall c (List.mem_cons_of_mem _ hc))
    · rw [if_neg he, if_neg (not_le.mpr (hall (nm, pset) (List.mem_cons_self _ _)))]
      exact ih best h (fun c hc => hall c (List.mem_cons_of_mem _ hc))

theorem fuzzyLoop_append_reject (parts : List String) (ms : ℚ) :
    ∀ (cands1 rest : List (String × List String)) (best : Option String) (h : ℚ),
      (∀ c ∈ cands1, ((tokenMatches parts c.2 : ℚ) < ms)) →
      fuzzyLoop parts ms (cands1 ++ rest) best h = fuzzyLoop parts ms rest best h := by
  intro cands1
  induction cands1 with
  | nil =>
    intro rest best h _
    rfl
  | cons c cs ih =>
    intro rest best h hall
    obtain ⟨nm, pset⟩ := c
    rw [List.cons_append]
    simp only [fuzzyLoop]
    by_cases he : pset.isEmpty
    · rw [if_pos he]
      exact ih rest best h (fun c hc => hall c (List.mem_cons_of_mem _ hc))
    · rw [if_neg he, if_neg (not_le.mpr (hall (nm, pset) (List.mem_cons_self _ _)))]
      exact ih rest best h (fun c hc => hall c (List.mem_cons_of_mem _ hc))

/-- C5: with threshold 0.8 and a secondary name of exactly two tokens, every
candidate list whose candidates each match at most one token yields no
match (a 1-of-2 candidate scores 0.5 and is rejected), and a candidate
matching both tokens is returned immediately: the result is its original
name irrespective of every candidate after it. -/
theorem fuzzy_two_token_threshold (name : String)
    (h2 : (pySplit (normalize_name name)).length = 2) :
    (∀ cands : List (String × List String),
      (∀ c ∈ cands, candMatches name c ≤ 1) →
      fuzzy_name_match name cands (4 / 5) = none) ∧
    (∀ (cands1 : List (String × List String)) (c : String × List String)
        (cands2 : List (String × List String)),
      (∀ c' ∈ cands1, candMatches name c' ≤ 1) → candMatches name c = 2 →
      fuzzy_name_match name (cands1 ++ c :: cands2) (4 / 5) = some c.1) := by
  have hne : normalize_name name ≠ "" := by
    intro he
    rw [he] at h2
    exact absurd h2 (by decide)
  have hpe : (pySplit (normalize_name name)).isEmpty = false := by
    cases hp : pySplit (normalize_name name)
    · rw [hp] at h2
      simp at h2
    · rfl
  have hlow : ∀ m : Nat, m ≤ 1 →
      ((m : ℚ) < (pySplit (normalize_name name)).length * (4 / 5)) := by
    intro m hm
    rw [h2]
    have hm' : (m : ℚ) ≤ 1 := by exact_mod_cast hm
    have : (1 : ℚ) < 2 * (4 / 5) := by norm_num
    push_cast
    linarith
  constructor
  · intro cands hall
    simp only [fuzzy_name_match, if_neg hne, hpe, Bool.false_eq_true, if_false]
    exact fuzzyLoop_all_reject _ _ cands none (-1)
      (fun c hc => hlow _ (hall c hc))
  · intro cands1 c cands2 hall hmc
    obtain ⟨nm, pset⟩ := c
    have hcne : pset.isEmpty = false := by
      cases hc2 : pset
      · rw [candMatches, tokenMatches] at hmc
        rw [hc2] at hmc
        simp at hmc
      · rfl
    simp only [fuzzy_name_match, if_neg hne, hpe, Bool.false_eq_true, if_false]
    rw [fuzzyLoop_append_reject _ _ cands1 _ none (-1) (fun c hc => hlow _ (hall c hc))]
    simp only [fuzzyLoop, hcne, Bool.false_eq_true, if_false]
    rw [candMatches] at hmc
    rw [hmc, h2]
    rw [if_pos (by norm_num), if_pos (by norm_num), if_pos (by norm_num)]

/-- C5 witness: the two-token theorem applied to LeBron James with a
1-of-2 candidate before and a perfect candidate followed by another perfect
candidate that is never scanned. -/
theorem fuzzy_two_token_threshold_witness :
    (pySplit (normalize_name ("LeBron James"))).length = 2 ∧
    (∀ c' ∈ ([("A", ["lebron", "smith"])] : List (String × List String)),
      candMatches ("LeBron James") c' ≤ 1) ∧
    candMatches ("LeBron James") (("B", ["lebron", "james"])) = 2 ∧
    fuzzy_name_match ("LeBron James")
        ([("A", ["lebron", "smith"])] ++ ("B", ["lebron", "james"]) :: [("C", ["lebron", "james"])])
        (4 / 5) = some ("B") :=
  ⟨by decide, by decide, by decide,
    (fuzzy_two_token_threshold ("LeBron James") (by decide)).2
      ([("A", ["lebron", "smith"])]) (("B", ["lebron", "james"]))
      ([("C", ["lebron", "james"])]) (by decide) (by decide)⟩

theorem specPick_stall : ∀ (l : List (String × ℚ)) (nm : String),
    (∀ p ∈ l, p.2 ≤ 1) → specPick l (some nm) 1 = some nm := by
  intro l
  induction l with
  | nil =>
    intro nm _
    rfl
  | cons p rest ih =>
    intro nm hall
    obtain ⟨n, q⟩ := p
    simp only [specPick]
    rw [if_neg (not_lt.mpr (hall (n, q) (List.mem_cons_self _ _)))]
    exact ih nm (fun p hp => hall p (List.mem_cons_of_mem _ hp))

theorem eligScore_le_one (parts : List String) (ms : ℚ) (c : String × List String) (q : ℚ)
    (hp : parts ≠ []) (h : eligScore parts ms c = some q) : q ≤ 1 := by
  rw [eligScore] at h
  by_cases he : c.2.isEmpty
  · rw [if_pos he] at h
    exact absurd h (by simp)
  · rw [if_neg he] at h
    by_cases ht : (tokenMatches parts c.2 : ℚ) ≥ ms
    · rw [if_pos ht] at h
      have hq : q = (tokenMatches parts c.2 : ℚ) / (parts.length : ℚ) :=
        (Option.some.inj h).symm
      have hm : tokenMatches parts c.2 ≤ parts.length := List.length_filter_le _ _
      have hl : 0 < parts.length := List.length_pos.mpr hp
      rw [hq, div_le_one (by exact_mod_cast hl)]
      exact_mod_cast hm
    · rw [if_neg ht] at h
      exact absurd h (by simp)

theorem fuzzyLoop_eq_specPick (parts : List String) (ms : ℚ) (hp : parts ≠ []) :
    ∀ (cands : List (String × List String)) (best : Option String) (h : ℚ),
      fuzzyLoop parts ms cands best h =
        specPick (cands.filterMap
          (fun c => (eligScore parts ms c).map (fun q => (c.1, q)))) best h := by
  intro cands
  induction cands with
  | nil =>
    intro best h
    rfl
  | cons c rest ih =>
    intro best h
    obtain ⟨nm, pset⟩ := c
    rw [List.filterMap_cons]
    by_cases he : pset.isEmpty
    · have hescore : eligScore parts ms (nm, pset) = none := by
        rw [eligScore, if_pos he]
      simp only [fuzzyLoop, he, if_true, hescore, Option.map_none']
      exact ih best h
    · by_cases ht : (tokenMatches parts pset : ℚ) ≥ ms
      · have hescore : eligScore parts ms (nm, pset) =
            some ((tokenMatches parts pset : ℚ) / (parts.length : ℚ)) := by
          rw [eligScore, if_neg he, if_pos ht]
        simp only [fuzzyLoop, he, Bool.false_eq_true, if_false, if_pos ht, hescore,
          Option.map_some']
        by_cases hgt : (tokenMatches parts pset : ℚ) / (parts.length : ℚ) > h
        · rw [if_pos hgt]
          simp only [specPick]
          rw [if_pos hgt]
          by_cases h1 : (tokenMatches parts pset : ℚ) / (parts.length : ℚ) = 1
          · rw [if_pos h1, h1]
            symm
            apply specPick_stall
            intro p hp'
            obtain ⟨c', hc', he'⟩ := List.mem_filterMap.mp hp'
            obtain ⟨q', hq', rfl⟩ := Option.map_eq_some'.mp he'
            exact eligScore_le_one parts ms c' q' hp hq'
          · rw [if_neg h1]
            exact ih (some nm) _
        · rw [if_neg hgt]
          simp only [specPick]
          rw [if_neg hgt]
          exact ih best h
      · have hescore : eligScore parts ms (nm, pset) = none := by
          rw [eligScore, if_neg he, if_neg ht]
        simp only [fuzzyLoop, he, Bool.false_eq_true, if_false, if_neg ht, hescore,
          Option.map_none']
        exact ih best h

/-- C6: the fuzzy matcher equals the specification selector that keeps the
candidate with the strictly highest score among those meeting the
threshold, ties keeping the earlier-seen candidate; both are pure
functions of the candidate order and threshold, so the result is
deterministic, and the short-circuit at score 1 never changes the result. -/
theorem fuzzy_matches_spec (espnName : String) (cands : List (String × List String))
    (threshold : ℚ) :
    fuzzy_name_match espnName cands threshold = fuzzySpec espnName cands threshold := by
  rw [fuzzy_name_match, fuzzySpec]
  by_cases hn : normalize_name espnName = ""
  · simp [hn]
  · simp only [if_neg hn]
    by_cases hpe : (pySplit (normalize_name espnName)).isEmpty
    · simp [hpe]
    · simp only [hpe, Bool.false_eq_true, if_false]
      apply fuzzyLoop_eq_specPick
      intro he
      rw [he] at hpe
      exact hpe rfl

/-!
Claim C2. Idempotence of the name normalizer: character-level facts about
Char.toLower, membership propagation through the pipeline stages, fixed
points of strip and whitespace collapse, and the amended idempotence.
-/

theorem isUpper_toLower (a : Char) : a.toLower.isUpper = false := by
  by_cases h : a.toNat ≥ 65 ∧ a.toNat ≤ 90
  · have ha : a.toLower = Char.ofNat (a.toNat + 32) := by
      simp only [Char.toLower]
      rw [if_pos h]
    rw [ha]
    obtain ⟨h1, h2⟩ := h
    generalize a.toNat = n at h1 h2
    interval_cases n <;> decide
  · have ha : a.toLower = a := by
      simp only [Char.toLower]
      rw [if_neg h]
    rw [ha]
    cases hu : a.isUpper
    · rfl
    · exfalso
      apply h
      rw [Char.isUpper, Bool.and_eq_true] at hu
      obtain ⟨h65, h90⟩ := hu
      exact ⟨UInt32.le_toNat_of_le (by decide) (of_decide_eq_true h65),
        UInt32.toNat_le_of_le (by decide) (of_decide_eq_true h90)⟩

theorem toLower_toLower (a : Char) : a.toLower.toLower = a.toLower := by
  by_cases h : a.toNat ≥ 65 ∧ a.toNat ≤ 90
  · have ha : a.toLower = Char.ofNat (a.toNat + 32) := by
      simp only [Char.toLower]
      rw [if_pos h]
    rw [ha]
    obtain ⟨h1, h2⟩ := h
    generalize a.toNat = n at h1 h2
    interval_cases n <;> decide
  · have ha : a.toLower = a := by
      simp only [Char.toLower]
      rw [if_neg h]
    rw [ha, ha]

theorem mem_suffixSubAux : ∀ (fuel : Nat) (l : List Char) (b : Bool) (c : Char),
    c ∈ suffixSubAux fuel l b → c ∈ l := by
  intro fuel
  induction fuel with
  | zero =>
    intro l b c hc
    simp [suffixSubAux] at hc
  | succ fuel ih =>
    intro l b c hc
    cases l with
    | nil => simp [suffixSubAux] at hc
    | cons x rest =>
      rw [suffixSubAux] at hc
      by_cases hb : b
      · rw [if_pos hb] at hc
        rcases List.mem_cons.mp hc with h' | h'
        · exact h' ▸ List.mem_cons_self _ _
        · exact List.mem_cons_of_mem _ (ih rest _ c h')
      · rw [if_neg hb] at hc
        cases hm : trySuffixMatchCore (x :: rest) with
        | some v =>
          rw [hm] at hc
          obtain ⟨k, dotEnd⟩ := v
          have := ih (rest.drop k) _ c hc
          exact List.mem_cons_of_mem _ (List.mem_of_mem_drop this)
        | none =>
          rw [hm] at hc
          rcases List.mem_cons.mp hc with h' | h'
          · exact h' ▸ List.mem_cons_self _ _
          · exact List.mem_cons_of_mem _ (ih rest _ c h')

theorem mem_pyReplaceFuel (pat rep : List Char) : ∀ (fuel : Nat) (l : List Char) (c : Char),
    c ∈ pyReplaceFuel pat rep fuel l → c ∈ l ∨ c ∈ rep := by
  intro fuel
  induction fuel with
  | zero =>
    intro l c hc
    simp [pyReplaceFuel] at hc
  | succ fuel ih =>
    intro l c hc
    cases l with
    | nil => simp [pyReplaceFuel] at hc
    | cons x rest =>
      rw [pyReplaceFuel] at hc
      by_cases ht : (x :: rest).take pat.length = pat
      · rw [if_pos ht] at hc
        rcases List.mem_append.mp hc with h' | h'
        · exact Or.inr h'
        · rcases ih _ c h' with h'' | h''
          · exact Or.inl (List.mem_cons_of_mem _ (List.mem_of_mem_drop h''))
          · exact Or.inr h''
      · rw [if_neg ht] at hc
        rcases List.mem_cons.mp hc with h' | h'
        · exact Or.inl (h' ▸ List.mem_cons_self _ _)
        · rcases ih rest c h' with h'' | h''
          · exact Or.inl (List.mem_cons_of_mem _ h'')
          · exact Or.inr h''

theorem mem_collapseWsAux : ∀ (l : List Char) (b : Bool) (c : Char),
    c ∈ collapseWsAux l b → c ∈ l ∨ c = ' ' := by
  intro l
  induction l with
  | nil =>
    intro b c hc
    simp [collapseWsAux] at hc
  | cons x rest ih =>
    intro b c hc
    rw [collapseWsAux] at hc
    by_cases hs : isSpaceChar x
    · rw [if_pos hs] at hc
      by_cases hb : b
      · rw [if_pos hb] at hc
        rcases ih true c hc with h' | h'
        · exact Or.inl (List.mem_cons_of_mem _ h')
        · exact Or.inr h'
      · rw [if_neg hb] at hc
        rcases List.mem_cons.mp hc with h' | h'
        · exact Or.inr h'
        · rcases ih true c h' with h'' | h''
          · exact Or.inl (List.mem_cons_of_mem _ h'')
          · exact Or.inr h''
    · rw [if_neg hs] at hc
      rcases List.mem_cons.mp hc with h' | h'
      · exact Or.inl (h' ▸ List.mem_cons_self _ _)
      · rcases ih false c h' with h'' | h''
        · exact Or.inl (List.mem_cons_of_mem _ h'')
        · exact Or.inr h''

theorem mem_stripChars (l : List Char) (c : Char) (hc : c ∈ stripChars l) : c ∈ l := by
  rw [stripChars, stripTrailing, stripLeading] at hc
  rw [List.mem_reverse] at hc
  have h1 := (List.dropWhile_suffix isSpaceChar).mem hc
  rw [List.mem_reverse] at h1
  exact (List.dropWhile_suffix isSpaceChar).mem h1

theorem dropWhile_idem (p : Char → Bool) (l : List Char) :
    List.dropWhile p (List.dropWhile p l) = List.dropWhile p l := by
  induction l with
  | nil => rfl
  | cons x rest ih =>
    rw [List.dropWhile_cons]
    by_cases hp : p x
    · rw [if_pos hp]
      exact ih
    · rw [if_neg hp, List.dropWhile_cons, if_neg hp]

theorem stripTrailing_idem (l : List Char) :
    stripTrailing (stripTrailing l) = stripTrailing l := by
  rw [stripTrailing, stripTrailing, List.reverse_reverse, dropWhile_idem]

theorem stripTrailing_isPrefix (m : List Char) : stripTrailing m <+: m := by
  rw [stripTrailing]
  apply List.reverse_suffix.mp
  rw [List.reverse_reverse]
  exact List.dropWhile_suffix isSpaceChar

theorem stripTrailing_head? (m : List Char) :
    (stripTrailing m).head? = none ∨ (stripTrailing m).head? = m.head? := by
  obtain ⟨t, ht⟩ := stripTrailing_isPrefix m
  cases hh : (stripTrailing m).head? with
  | none => exact Or.inl rfl
  | some c =>
    refine Or.inr ?_
    rw [← ht, List.head?_append, hh]
    rfl

theorem head?_dropWhile_false (p : Char → Bool) (l : List Char) :
    ∀ c, (List.dropWhile p l).head? = some c → p c = false := by
  induction l with
  | nil =>
    intro c hc
    simp at hc
  | cons x rest ih =>
    intro c hc
    rw [List.dropWhile_cons] at hc
    by_cases hp : p x
    · rw [if_pos hp] at hc
      exact ih c hc
    · rw [if_neg hp] at hc
      simp only [List.head?_cons, Option.some.injEq] at hc
      subst hc
      exact Bool.eq_false_iff.mpr hp

theorem stripLeading_eq_self_of_head (l : List Char)
    (h : ∀ c, l.head? = some c → isSpaceChar c = false) : stripLeading l = l := by
  cases l with
  | nil => rfl
  | cons x rest =>
    rw [stripLeading, List.dropWhile_cons, if_neg]
    simp [h x rfl]

theorem stripChars_stripChars (l : List Char) :
    stripChars (stripChars l) = stripChars l := by
  have hhead : ∀ c, (stripChars l).head? = some c → isSpaceChar c = false := by
    intro c hc
    rw [stripChars] at hc
    rcases stripTrailing_head? (stripLeading l) with h' | h'
    · rw [h'] at hc
      exact absurd hc (by simp)
    · rw [h'] at hc
      exact head?_dropWhile_false isSpaceChar l c hc
  conv_lhs => rw [stripChars]
  rw [stripLeading_eq_self_of_head _ hhead, stripChars, stripTrailing_idem]

theorem collapse_space_is_blank : ∀ (l : List Char) (b : Bool) (c : Char),
    c ∈ collapseWsAux l b → isSpaceChar c = true → c = ' ' := by
  intro l
  induction l with
  | nil =>
    intro b c hc
    simp [collapseWsAux] at hc
  | cons x rest ih =>
    intro b c hc hs
    rw [collapseWsAux] at hc
    by_cases hx : isSpaceChar x
    · rw [if_pos hx] at hc
      by_cases hb : b
      · rw [if_pos hb] at hc
        exact ih true c hc hs
      · rw [if_neg hb] at hc
        rcases List.mem_cons.mp hc with h' | h'
        · exact h'
        · exact ih true c h' hs
    · rw [if_neg hx] at hc
      rcases List.mem_cons.mp hc with h' | h'
      · subst h'
        exact absurd hs (by simp [hx])
      · exact ih false c h' hs

theorem collapse_head_true : ∀ (l : List Char) (c : Char),
    (collapseWsAux l true).head? = some c → isSpaceChar c = false := by
  intro l
  induction l with
  | nil =>
    intro c hc
    simp [collapseWsAux] at hc
  | cons x rest ih =>
    intro c hc
    rw [collapseWsAux] at hc
    by_cases hx : isSpaceChar x
    · rw [if_pos hx, if_pos rfl] at hc
      exact ih c hc
    · rw [if_neg hx] at hc
      simp only [List.head?_cons, Option.some.injEq] at hc
      subst hc
      exact Bool.eq_false_iff.mpr hx

theorem collapse_chain : ∀ (l : List Char) (b : Bool),
    (collapseWsAux l b).Chain'
      (fun a c => ¬(isSpaceChar a = true ∧ isSpaceChar c = true)) := by
  intro l
  induction l with
  | nil =>
    intro b
    simp [collapseWsAux]
  | cons x rest ih =>
    intro b
    rw [collapseWsAux]
    by_cases hx : isSpaceChar x
    · rw [if_pos hx]
      by_cases hb : b
      · rw [if_pos hb]
        exact ih true
      · rw [if_neg hb]
        rw [List.chain'_cons']
        refine ⟨?_, ih true⟩
        intro y hy
        intro hcon
        have := collapse_head_true rest y hy
        rw [this] at hcon
        exact absurd hcon.2 (by simp)
    · rw [if_neg hx]
      rw [List.chain'_cons']
      refine ⟨?_, ih false⟩
      intro y hy
      intro hcon
      exact hx hcon.1

theorem collapse_fix : ∀ (l : List Char),
    (∀ c ∈ l, isSpaceChar c = true → c = ' ') →
    l.Chain' (fun a c => ¬(isSpaceChar a = true ∧ isSpaceChar c = true)) →
    (collapseWsAux l false = l ∧
      ((∀ c, l.head? = some c → isSpaceChar c = false) → collapseWsAux l true = l)) := by
  intro l
  induction l with
  | nil =>
    intro _ _
    exact ⟨rfl, fun _ => rfl⟩
  | cons x rest ih =>
    intro hsp hch
    rw [List.chain'_cons'] at hch
    obtain ⟨hhead, hch'⟩ := hch
    have hsp' : ∀ c ∈ rest, isSpaceChar c = true → c = ' ' :=
      fun c hc => hsp c (List.mem_cons_of_mem _ hc)
    obtain ⟨ih1, ih2⟩ := ih hsp' hch'
    by_cases hx : isSpaceChar x
    · have hx' : x = ' ' := hsp x (List.mem_cons_self _ _) hx
      have hrest : ∀ c, rest.head? = some c → isSpaceChar c = false := by
        intro c hc
        have := hhead c hc
        cases hcs : isSpaceChar c
        · rfl
        · exact absurd ⟨hx, hcs⟩ this
      constructor
      · rw [collapseWsAux, if_pos hx, if_neg (by simp), ih2 hrest, hx']
      · intro hcontra
        exact absurd (hcontra x rfl) (by simp [hx])
    · constructor
      · rw [collapseWsAux, if_neg hx, ih1]
      · intro _
        rw [collapseWsAux, if_neg hx, ih1]

theorem pyIsUpper_false_of_no_upper (l : List Char) (h : ∀ c ∈ l, c.isUpper = false) :
    pyIsUpper l = false := by
  rw [pyIsUpper]
  cases hany : l.any isCased
  · rw [Bool.false_and]
  · rw [List.any_eq_true] at hany
    obtain ⟨c0, hc0, hcased⟩ := hany
    have hall : l.all (fun c => !isCased c || c.isUpper) = false := by
      rw [List.all_eq_false]
      refine ⟨c0, hc0, ?_⟩
      rw [hcased, h c0 hc0]
      decide
    rw [hall, Bool.and_false]

theorem map_toLower_fix (l : List Char) (h : ∀ c ∈ l, c.toLower = c) :
    l.map Char.toLower = l := by
  induction l with
  | nil => rfl
  | cons x rest ih =>
    rw [List.map_cons, h x (List.mem_cons_self _ _),
      ih (fun c hc => h c (List.mem_cons_of_mem _ hc))]

theorem oneal_chars : ∀ c ∈ onealCanonical,
    c.toLower = c ∧ c.isUpper = false ∧ keepChar c = true := by decide

theorem normalizeChars_mem (l : List Char) :
    ∀ c ∈ normalizeChars l, c.toLower = c ∧ c.isUpper = false ∧ keepChar c = true := by
  intro c hc
  simp only [normalizeChars] at hc
  have h7 := mem_stripChars _ _ hc
  rcases mem_collapseWsAux _ _ _ h7 with h6 | hsp
  · have hkeep := (List.mem_filter.mp h6).2
    have h5m := (List.mem_filter.mp h6).1
    rw [pyReplace] at h5m
    rcases mem_pyReplaceFuel _ _ _ _ _ h5m with h4 | hon
    · rw [suffixSub] at h4
      have h3 := mem_suffixSubAux _ _ _ _ h4
      rw [List.mem_map] at h3
      obtain ⟨a, _, rfl⟩ := h3
      exact ⟨toLower_toLower a, isUpper_toLower a, hkeep⟩
    · exact oneal_chars c hon
  · subst hsp
    exact ⟨by decide, by decide, by decide⟩

theorem normalizeChars_eq_self (y : List Char)
    (ha : stripChars y = y)
    (hb : pyIsUpper y = false)
    (hc : y.map Char.toLower = y)
    (hd : suffixSub y = y)
    (he : pyReplace onealVariant onealCanonical y = y)
    (hf : y.filter keepChar = y)
    (hg : collapseWsAux y false = y) :
    normalizeChars y = y := by
  simp only [normalizeChars, ha, hb, Bool.false_eq_true, if_false, hc, hd, he, hf, hg]

theorem stripChars_isInfix (l : List Char) : stripChars l <:+: l := by
  obtain ⟨t, ht⟩ := stripTrailing_isPrefix (stripLeading l)
  obtain ⟨s, hs⟩ := List.dropWhile_suffix (l := l) isSpaceChar
  refine ⟨s, t, ?_⟩
  rw [stripChars, List.append_assoc, ht]
  exact hs

theorem collapse_of_collapse_strip (s6 : List Char) :
    collapseWsAux (stripChars (collapseWsAux s6 false)) false
      = stripChars (collapseWsAux s6 false) := by
  apply (collapse_fix _ ?_ ?_).1
  · intro c hc hs
    exact collapse_space_is_blank s6 false c (mem_stripChars _ _ hc) hs
  · exact List.Chain'.infix (collapse_chain s6 false) (stripChars_isInfix _)

/-- C2 counterexample: idempotence fails; stripping the dot of j.r glues a
fresh jr token that the second pass removes as a generational suffix. -/
theorem normalize_name_idem_cex :
    normalize_name ("j.r") = "jr" ∧ normalize_name (normalize_name ("j.r")) = "" ∧
    normalize_name (normalize_name ("j.r")) ≠ normalize_name ("j.r") := by decide

/-- C2 (amended): the normalizer is idempotent on every string whose
normalized form is a fixed point of the suffix-removal rule and of the alias
substitution; equivalently, re-normalizing changes nothing unless the first
pass manufactured a new generational-suffix token or alias occurrence.  The
remaining pipeline stages (strip, all-caps repair, lowercasing, punctuation
removal, whitespace collapse) are always identities on normalizer output,
which is the content proved here. -/
theorem normalize_name_idem_amended (x : String)
    (hsuf : suffixSub (normalize_name x).data = (normalize_name x).data)
    (hrep : pyReplace onealVariant onealCanonical (normalize_name x).data
      = (normalize_name x).data) :
    normalize_name (normalize_name x) = normalize_name x := by
  have hch := normalizeChars_mem x.data
  have ha : stripChars (normalizeChars x.data) = normalizeChars x.data := by
    simp only [normalizeChars]
    exact stripChars_stripChars _
  have hb : pyIsUpper (normalizeChars x.data) = false :=
    pyIsUpper_false_of_no_upper _ (fun c hc => (hch c hc).2.1)
  have hcl : (normalizeChars x.data).map Char.toLower = normalizeChars x.data :=
    map_toLower_fix _ (fun c hc => (hch c hc).1)
  have hf : (normalizeChars x.data).filter keepChar = normalizeChars x.data :=
    List.filter_eq_self.mpr (fun c hc => (hch c hc).2.2)
  have hg : collapseWsAux (normalizeChars x.data) false = normalizeChars x.data := by
    simp only [normalizeChars]
    exact collapse_of_collapse_strip _
  have hdata : (normalize_name x).data = normalizeChars x.data := rfl
  rw [hdata] at hsuf hrep
  have key := normalizeChars_eq_self (normalizeChars x.data) ha hb hcl hsuf hrep hf hg
  show (⟨normalizeChars (normalize_name x).data⟩ : String) = normalize_name x
  rw [hdata, key]
  rfl

/-- C2 witness: the amended idempotence applied to LeBron James, whose
normalized form has no suffix token and no alias occurrence. -/
theorem normalize_name_idem_amended_witness :
    suffixSub (normalize_name ("LeBron James")).data = (normalize_name ("LeBron James")).data ∧
    pyReplace onealVariant onealCanonical (normalize_name ("LeBron James")).data
      = (normalize_name ("LeBron James")).data ∧
    normalize_name (normalize_name ("LeBron James")) = normalize_name ("LeBron James") :=
  ⟨by decide, by decide, normalize_name_idem_amended ("LeBron James") (by decide) (by decide)⟩

/-!
Claim C7. The date formatter.  The claim as frozen says unrecognized inputs
are returned unchanged; the source strips the input before matching and
returns the stripped string, so whitespace-padded unrecognized inputs come
back stripped.  The claim is corrected accordingly, and the three
recognized branches are proved for every input of their form: every month
word of the table in any letter case, every one- or two-digit day, every
four-digit year, every ISO-shaped input and every slash date.
-/

/-- C7 counterexample: the whitespace-padded unrecognized input is returned
stripped, not unchanged. -/
theorem standardize_date_strip_cex :
    standardize_date_format (" circa 1984") = "circa 1984" ∧
    (" circa 1984" : String) ≠ "circa 1984" := by decide

theorem takeWhile_append_notp (p : Char → Bool) :
    ∀ (w : List Char) (x : Char) (r : List Char), (∀ c ∈ w, p c = true) →
      p x = false → (w ++ x :: r).takeWhile p = w := by
  intro w
  induction w with
  | nil =>
    intro x r _ hx
    simp [List.takeWhile_cons, hx]
  | cons a t ih =>
    intro x r hw hx
    simp only [List.cons_append, List.takeWhile_cons]
    rw [if_pos (hw a (List.mem_cons_self _ _)), ih x r
      (fun c hc => hw c (List.mem_cons_of_mem _ hc)) hx]

theorem dropWhile_all_append (p : Char → Bool) (w : List Char) (x : Char)
    (r : List Char) (hw : ∀ c ∈ w, p c = true) (hx : p x = false) :
    (w ++ x :: r).dropWhile p = x :: r := by
  rw [dropWhile_append_cons_notp p w x r hx, List.dropWhile_eq_nil_iff.mpr]
  · rfl
  · intro c hc
    exact hw c hc

theorem stripTrailing_eq_self (l : List Char)
    (h : ∀ c, l.getLast? = some c → isSpaceChar c = false) : stripTrailing l = l := by
  rw [stripTrailing]
  have hrev : l.reverse.dropWhile isSpaceChar = l.reverse := by
    cases hr : l.reverse with
    | nil => rfl
    | cons x xs =>
      rw [List.dropWhile_cons, if_neg]
      have hx : l.getLast? = some x := by
        rw [← List.head?_reverse, hr]
        rfl
      simp [h x hx]
  rw [hrev, List.reverse_reverse]

/-- Python str.strip is the identity on a string whose first and last
characters are not whitespace. -/
theorem stripChars_eq_self (l : List Char)
    (hh : ∀ c, l.head? = some c → isSpaceChar c = false)
    (hl : ∀ c, l.getLast? = some c → isSpaceChar c = false) : stripChars l = l := by
  rw [stripChars, stripLeading_eq_self_of_head l hh, stripTrailing_eq_self l hl]

/-- Every key of MONTH_TO_NUM_MAP is a nonempty word of lowercase letters. -/
theorem monthMap_key_bounds : ∀ p ∈ monthMap, p.1 ≠ [] ∧
    ∀ k ∈ p.1, 'a' ≤ k ∧ k ≤ 'z' := by decide

theorem notSpace_of_isDigit (c : Char) (h : c.isDigit = true) : isSpaceChar c = false := by
  by_contra hs
  rw [Bool.not_eq_false] at hs
  have h4 : ((c = ' ' ∨ c = '\t') ∨ c = '\x0d') ∨ c = '\n' := by
    simpa [isSpaceChar, Char.isWhitespace] using hs
  rcases h4 with ((h' | h') | h') | h' <;> subst h' <;> exact absurd h (by decide)

theorem isWordChar_of_isDigit (c : Char) (h : c.isDigit = true) : isWordChar c = true := by
  simp [isWordChar, Char.isAlphanum, h]

theorem notSpace_of_toLower_lower (c : Char) (h1 : 'a' ≤ c.toLower)
    (h2 : c.toLower ≤ 'z') : isSpaceChar c = false := by
  by_contra hs
  rw [Bool.not_eq_false] at hs
  have h4 : ((c = ' ' ∨ c = '\t') ∨ c = '\x0d') ∨ c = '\n' := by
    simpa [isSpaceChar, Char.isWhitespace] using hs
  rcases h4 with ((h' | h') | h') | h' <;> subst h' <;> exact absurd h1 (by decide)

/-- A character whose ASCII lowercasing is a lowercase letter is itself a
letter, hence a regex word character. -/
theorem isWordChar_of_toLower_lower (c : Char) (h1 : 'a' ≤ c.toLower)
    (h2 : c.toLower ≤ 'z') : isWordChar c = true := by
  by_cases h : c.toNat ≥ 65 ∧ c.toNat ≤ 90
  · have hup : c.isUpper = true := by
      rw [Char.isUpper]
      have ha : (65 : UInt32) ≤ c.val := by
        change (65 : UInt32).toNat ≤ c.val.toNat
        simpa using h.1
      have hb : c.val ≤ (90 : UInt32) := by
        change c.val.toNat ≤ (90 : UInt32).toNat
        simpa using h.2
      simp [ha, hb]
    simp [isWordChar, Char.isAlphanum, Char.isAlpha, hup]
  · have ha : c.toLower = c := by
      simp only [Char.toLower]
      rw [if_neg h]
    rw [ha] at h1 h2
    have hlo : c.isLower = true := by
      rw [Char.isLower]
      have ha' : (97 : UInt32) ≤ c.val := h1
      have hb' : c.val ≤ (122 : UInt32) := h2
      simp [ha', hb']
    simp [isWordChar, Char.isAlphanum, Char.isAlpha, hlo]

/-- A word accepted by the month table is nonempty and consists of word
characters only, none of them whitespace. -/
theorem monthLookup_word_chars (w mn : List Char) (h : monthLookup w = some mn) :
    w ≠ [] ∧ ∀ c ∈ w, isWordChar c = true ∧ isSpaceChar c = false := by
  rw [monthLookup] at h
  cases hf : monthMap.find? (fun p => p.1 = w.map Char.toLower) with
  | none =>
    rw [hf] at h
    simp at h
  | some p =>
    have hpe : p.1 = w.map Char.toLower := by
      have := List.find?_some hf
      simpa using this
    have hpm : p ∈ monthMap := List.mem_of_find?_eq_some hf
    have hkey := monthMap_key_bounds p hpm
    constructor
    · intro hw
      subst hw
      simp at hpe
      exact hkey.1 hpe
    · intro c hc
      have hmem : c.toLower ∈ p.1 := by
        rw [hpe]
        exact List.mem_map_of_mem _ hc
      obtain ⟨hb1, hb2⟩ := hkey.2 _ hmem
      exact ⟨isWordChar_of_toLower_lower c hb1 hb2, notSpace_of_toLower_lower c hb1 hb2⟩

/-- RE_MONTH_DAY_YEAR on a word followed by a space: the word group takes
exactly the word, the whitespace matches, and the rest is handled by the
day-and-year parser. -/
theorem matchMonthDayYear_eval (w : List Char) (hw0 : w ≠ [])
    (hword : ∀ c ∈ w, isWordChar c = true) (t0 : List Char) (c0 : Char)
    (hc0 : t0.head? = some c0) (hc0s : isSpaceChar c0 = false) :
    matchMonthDayYear (w ++ ' ' :: t0) =
      (dayYear t0).map (fun p => (w, p.1, p.2)) := by
  have htake : (w ++ ' ' :: t0).takeWhile isWordChar = w :=
    takeWhile_append_notp isWordChar w ' ' t0 hword (by decide)
  have hdrop : (w ++ ' ' :: t0).dropWhile isWordChar = ' ' :: t0 :=
    dropWhile_all_append isWordChar w ' ' t0 hword (by decide)
  have hwe : w.isEmpty = false := by
    cases w with
    | nil => exact absurd rfl hw0
    | cons a t => rfl
  have hdw : t0.dropWhile isSpaceChar = t0 := by
    cases t0 with
    | nil => rfl
    | cons x xs =>
      simp only [List.head?_cons, Option.some.injEq] at hc0
      subst hc0
      rw [List.dropWhile_cons, if_neg]
      simp [hc0s]
  simp only [matchMonthDayYear, htake, hdrop, hwe, Bool.false_eq_true, if_false,
    List.takeWhile_cons, show isSpaceChar ' ' = true from rfl, if_pos,
    List.isEmpty_cons, List.dropWhile_cons, hdw]

theorem dayYear_one (a : Char) (ha : a.isDigit = true) (y1 y2 y3 y4 : Char)
    (h1 : y1.isDigit = true) (h2 : y2.isDigit = true) (h3 : y3.isDigit = true)
    (h4 : y4.isDigit = true) :
    dayYear (a :: ',' :: ' ' :: [y1, y2, y3, y4]) = some ([a], [y1, y2, y3, y4]) := by
  simp only [dayYear, ha, if_pos, show (',').isDigit = false from rfl,
    Bool.false_eq_true, if_false, commaSpaceYear, List.dropWhile_cons,
    show isSpaceChar ' ' = true from rfl, if_pos, notSpace_of_isDigit y1 h1,
    if_false, matchYear4, h1, h2, h3, h4, Bool.and_self, Option.map_some']

theorem dayYear_two (a b : Char) (ha : a.isDigit = true) (hb : b.isDigit = true)
    (y1 y2 y3 y4 : Char)
    (h1 : y1.isDigit = true) (h2 : y2.isDigit = true) (h3 : y3.isDigit = true)
    (h4 : y4.isDigit = true) :
    dayYear (a :: b :: ',' :: ' ' :: [y1, y2, y3, y4]) =
      some ([a, b], [y1, y2, y3, y4]) := by
  simp only [dayYear, ha, hb, if_pos, commaSpaceYear, List.dropWhile_cons,
    show isSpaceChar ' ' = true from rfl, if_pos]
  simp [List.dropWhile_cons, notSpace_of_isDigit y1 h1, matchYear4, h1, h2, h3, h4]

/-- The Month Day, Year branch for every table month word (any letter case),
every one- or two-digit day and every four-digit year. -/
theorem date_month_eval (w mn : List Char) (hm : monthLookup w = some mn)
    (d : List Char) (hd0 : d ≠ []) (hd2 : d.length ≤ 2)
    (hdd : d.all Char.isDigit = true) (y1 y2 y3 y4 : Char)
    (h1 : y1.isDigit = true) (h2 : y2.isDigit = true) (h3 : y3.isDigit = true)
    (h4 : y4.isDigit = true) :
    standardize_date_format ⟨w ++ ' ' :: (d ++ ',' :: ' ' :: [y1, y2, y3, y4])⟩ =
      ⟨[y1, y2, y3, y4] ++ '-' :: (mn ++ '-' :: zfill2 d)⟩ := by
  obtain ⟨hw0, hwc⟩ := monthLookup_word_chars w mn hm
  have hword : ∀ c ∈ w, isWordChar c = true := fun c hc => (hwc c hc).1
  have hstrip : stripChars (w ++ ' ' :: (d ++ ',' :: ' ' :: [y1, y2, y3, y4])) =
      w ++ ' ' :: (d ++ ',' :: ' ' :: [y1, y2, y3, y4]) := by
    apply stripChars_eq_self
    · intro c hc
      cases w with
      | nil => exact absurd rfl hw0
      | cons wc wt =>
        simp only [List.cons_append, List.head?_cons, Option.some.injEq] at hc
        subst hc
        exact (hwc _ (List.mem_cons_self _ _)).2
    · intro c hc
      have hL : w ++ ' ' :: (d ++ ',' :: ' ' :: [y1, y2, y3, y4]) =
          (w ++ ' ' :: (d ++ [',', ' ', y1, y2, y3])) ++ [y4] := by
        simp
      rw [hL, List.getLast?_concat, Option.some.injEq] at hc
      subst hc
      exact notSpace_of_isDigit _ h4
  have hsd : (⟨w ++ ' ' :: (d ++ ',' :: ' ' :: [y1, y2, y3, y4])⟩ : String).data =
      w ++ ' ' :: (d ++ ',' :: ' ' :: [y1, y2, y3, y4]) := rfl
  rcases d with _ | ⟨a, d'⟩
  · exact absurd rfl hd0
  · have ha : a.isDigit = true := by
      simp only [List.all_cons, Bool.and_eq_true] at hdd
      exact hdd.1
    rcases d' with _ | ⟨b, d''⟩
    · have hmdy : matchMonthDayYear
          (w ++ ' ' :: ([a] ++ ',' :: ' ' :: [y1, y2, y3, y4])) =
          some (w, [a], [y1, y2, y3, y4]) := by
        rw [matchMonthDayYear_eval w hw0 hword
          ([a] ++ ',' :: ' ' :: [y1, y2, y3, y4]) a rfl (notSpace_of_isDigit a ha)]
        rw [show ([a] ++ ',' :: ' ' :: [y1, y2, y3, y4]) =
          a :: ',' :: ' ' :: [y1, y2, y3, y4] from rfl]
        rw [dayYear_one a ha y1 y2 y3 y4 h1 h2 h3 h4, Option.map_some']
      simp only [standardize_date_format, hsd, hstrip, hmdy, hm, Option.map_some']
    · rcases d'' with _ | ⟨e, d3⟩
      · have hb : b.isDigit = true := by
          simp only [List.all_cons, Bool.and_eq_true] at hdd
          exact hdd.2.1
        have hmdy : matchMonthDayYear
            (w ++ ' ' :: ([a, b] ++ ',' :: ' ' :: [y1, y2, y3, y4])) =
            some (w, [a, b], [y1, y2, y3, y4]) := by
          rw [matchMonthDayYear_eval w hw0 hword
            ([a, b] ++ ',' :: ' ' :: [y1, y2, y3, y4]) a rfl (notSpace_of_isDigit a ha)]
          rw [show ([a, b] ++ ',' :: ' ' :: [y1, y2, y3, y4]) =
            a :: b :: ',' :: ' ' :: [y1, y2, y3, y4] from rfl]
          rw [dayYear_two a b ha hb y1 y2 y3 y4 h1 h2 h3 h4, Option.map_some']
        simp only [standardize_date_format, hsd, hstrip, hmdy, hm, Option.map_some']
      · exfalso
        simp only [List.length_cons] at hd2
        omega

/-- The ISO branch for every YYYY-MM-DD shaped input: the month-day-year
regex fails (its word group takes the year digits and no whitespace
follows), the ISO pattern matches, and the stripped input is returned. -/
theorem date_iso_eval (y1 y2 y3 y4 m1 m2 d1 d2 : Char)
    (h1 : y1.isDigit = true) (h2 : y2.isDigit = true) (h3 : y3.isDigit = true)
    (h4 : y4.isDigit = true) (h5 : m1.isDigit = true) (h6 : m2.isDigit = true)
    (h7 : d1.isDigit = true) (h8 : d2.isDigit = true) :
    standardize_date_format ⟨[y1, y2, y3, y4, '-', m1, m2, '-', d1, d2]⟩ =
      ⟨[y1, y2, y3, y4, '-', m1, m2, '-', d1, d2]⟩ := by
  have hstrip : stripChars [y1, y2, y3, y4, '-', m1, m2, '-', d1, d2] =
      [y1, y2, y3, y4, '-', m1, m2, '-', d1, d2] := by
    apply stripChars_eq_self
    · intro c hc
      simp only [List.head?_cons, Option.some.injEq] at hc
      subst hc
      exact notSpace_of_isDigit _ h1
    · intro c hc
      have hL : [y1, y2, y3, y4, '-', m1, m2, '-', d1, d2] =
          [y1, y2, y3, y4, '-', m1, m2, '-', d1] ++ [d2] := by simp
      rw [hL, List.getLast?_concat, Option.some.injEq] at hc
      subst hc
      exact notSpace_of_isDigit _ h8
  have hsd : (⟨[y1, y2, y3, y4, '-', m1, m2, '-', d1, d2]⟩ : String).data =
      [y1, y2, y3, y4, '-', m1, m2, '-', d1, d2] := rfl
  have hmdy : matchMonthDayYear [y1, y2, y3, y4, '-', m1, m2, '-', d1, d2] = none := by
    have htk : List.takeWhile isWordChar [y1, y2, y3, y4, '-', m1, m2, '-', d1, d2] =
        [y1, y2, y3, y4] := by
      simp [List.takeWhile_cons, isWordChar_of_isDigit _ h1, isWordChar_of_isDigit _ h2,
        isWordChar_of_isDigit _ h3, isWordChar_of_isDigit _ h4,
        show isWordChar '-' = false from rfl]
    have hdr : List.dropWhile isWordChar [y1, y2, y3, y4, '-', m1, m2, '-', d1, d2] =
        ['-', m1, m2, '-', d1, d2] := by
      simp [List.dropWhile_cons, isWordChar_of_isDigit _ h1, isWordChar_of_isDigit _ h2,
        isWordChar_of_isDigit _ h3, isWordChar_of_isDigit _ h4,
        show isWordChar '-' = false from rfl]
    simp [matchMonthDayYear, htk, hdr, show isSpaceChar '-' = false from rfl]
  have hiso : matchesIso [y1, y2, y3, y4, '-', m1, m2, '-', d1, d2] = true := by
    simp [matchesIso, h1, h2, h3, h4, h5, h6, h7, h8]
  simp only [standardize_date_format, hsd, hstrip, hmdy, hiso, if_true]

theorem digits12Slash_one (a : Char) (ha : a.isDigit = true) (t : List Char) :
    digits12Slash (a :: '/' :: t) = some ([a], t) := by
  cases t with
  | nil => simp [digits12Slash, ha]
  | cons x xs => simp [digits12Slash, ha]

theorem digits12Slash_two (a b : Char) (ha : a.isDigit = true)
    (hb : b.isDigit = true) (t : List Char) :
    digits12Slash (a :: b :: '/' :: t) = some ([a, b], t) := by
  simp [digits12Slash, ha, hb]

/-- RE_MONTH_DAY_YEAR fails on every input whose leading word run is
followed by a slash: the mandatory whitespace after the word group cannot
match. -/
theorem matchMonthDayYear_slash (m : List Char) (hm0 : m ≠ [])
    (hmw : ∀ c ∈ m, isWordChar c = true) (t : List Char) :
    matchMonthDayYear (m ++ '/' :: t) = none := by
  have htake := takeWhile_append_notp isWordChar m '/' t hmw (by decide)
  have hdrop := dropWhile_all_append isWordChar m '/' t hmw (by decide)
  have hwe : m.isEmpty = false := by
    cases m with
    | nil => exact absurd rfl hm0
    | cons a t' => rfl
  simp [matchMonthDayYear, htake, hdrop, hwe, show isSpaceChar '/' = false from rfl]

theorem matchYear4_eval (y1 y2 y3 y4 : Char)
    (h1 : y1.isDigit = true) (h2 : y2.isDigit = true) (h3 : y3.isDigit = true)
    (h4 : y4.isDigit = true) (r : List Char) :
    matchYear4 (y1 :: y2 :: y3 :: y4 :: r) = some [y1, y2, y3, y4] := by
  simp [matchYear4, h1, h2, h3, h4]

/-- The M/D/YYYY branch for every one- or two-digit month and day group and
every four-digit year. -/
theorem date_mdy_eval (m d : List Char) (hm0 : m ≠ []) (hm2 : m.length ≤ 2)
    (hmd : m.all Char.isDigit = true) (hd0 : d ≠ []) (hd2 : d.length ≤ 2)
    (hdd : d.all Char.isDigit = true) (y1 y2 y3 y4 : Char)
    (h1 : y1.isDigit = true) (h2 : y2.isDigit = true) (h3 : y3.isDigit = true)
    (h4 : y4.isDigit = true) :
    standardize_date_format ⟨m ++ '/' :: (d ++ '/' :: [y1, y2, y3, y4])⟩ =
      ⟨[y1, y2, y3, y4] ++ '-' :: (zfill2 m ++ '-' :: zfill2 d)⟩ := by
  have hmall : ∀ c ∈ m, c.isDigit = true := by
    intro c hc
    exact List.all_eq_true.mp hmd c hc
  have hdall : ∀ c ∈ d, c.isDigit = true := by
    intro c hc
    exact List.all_eq_true.mp hdd c hc
  have hwordm : ∀ c ∈ m, isWordChar c = true :=
    fun c hc => isWordChar_of_isDigit c (hmall c hc)
  have hstrip : stripChars (m ++ '/' :: (d ++ '/' :: [y1, y2, y3, y4])) =
      m ++ '/' :: (d ++ '/' :: [y1, y2, y3, y4]) := by
    apply stripChars_eq_self
    · intro c hc
      rcases m with _ | ⟨a, m'⟩
      · exact absurd rfl hm0
      · simp only [List.cons_append, List.head?_cons, Option.some.injEq] at hc
        subst hc
        exact notSpace_of_isDigit _ (hmall _ (List.mem_cons_self _ _))
    · intro c hc
      have hL : m ++ '/' :: (d ++ '/' :: [y1, y2, y3, y4]) =
          (m ++ '/' :: (d ++ ['/', y1, y2, y3])) ++ [y4] := by simp
      rw [hL, List.getLast?_concat, Option.some.injEq] at hc
      subst hc
      exact notSpace_of_isDigit _ h4
  have hnomdy : matchMonthDayYear (m ++ '/' :: (d ++ '/' :: [y1, y2, y3, y4])) = none :=
    matchMonthDayYear_slash m hm0 hwordm _
  have hy := matchYear4_eval y1 y2 y3 y4 h1 h2 h3 h4 []
  rcases m with _ | ⟨a, m'⟩
  · exact absurd rfl hm0
  have ha : a.isDigit = true := hmall a (List.mem_cons_self _ _)
  rcases d with _ | ⟨c, d'⟩
  · exact absurd rfl hd0
  have hc : c.isDigit = true := hdall c (List.mem_cons_self _ _)
  rcases m' with _ | ⟨b, m''⟩
  · rcases d' with _ | ⟨e, d''⟩
    · have hiso : matchesIso (a :: '/' :: (c :: '/' :: [y1, y2, y3, y4])) = false := rfl
      simp only [List.cons_append, List.nil_append] at hstrip hnomdy hiso
      simp [standardize_date_format, hstrip, hnomdy, hiso, matchMDY,
        digits12Slash_one a ha, digits12Slash_one c hc, hy]
    · rcases d'' with _ | ⟨f, d3⟩
      · have he : e.isDigit = true := hdall e (by simp)
        have hiso : matchesIso (a :: '/' :: (c :: e :: '/' :: [y1, y2, y3, y4])) = false := rfl
        simp only [List.cons_append, List.nil_append] at hstrip hnomdy hiso
        simp [standardize_date_format, hstrip, hnomdy, hiso, matchMDY,
          digits12Slash_one a ha, digits12Slash_two c e hc he, hy]
      · exfalso
        simp only [List.length_cons] at hd2
        omega
  · rcases m'' with _ | ⟨g, m3⟩
    · have hb : b.isDigit = true := hmall b (by simp)
      rcases d' with _ | ⟨e, d''⟩
      · have hiso : matchesIso (a :: b :: '/' :: (c :: '/' :: [y1, y2, y3, y4])) = false := rfl
        simp only [List.cons_append, List.nil_append] at hstrip hnomdy hiso
        simp [standardize_date_format, hstrip, hnomdy, hiso, matchMDY,
          digits12Slash_two a b ha hb, digits12Slash_one c hc, hy]
      · rcases d'' with _ | ⟨f, d3⟩
        · have he : e.isDigit = true := hdall e (by simp)
          have hiso : matchesIso (a :: b :: '/' :: (c :: e :: '/' :: [y1, y2, y3, y4])) =
              false := by
            simp [matchesIso, show ('/').isDigit = false from rfl]
          simp only [List.cons_append, List.nil_append] at hstrip hnomdy hiso
          simp [standardize_date_format, hstrip, hnomdy, hiso, matchMDY,
            digits12Slash_two a b ha hb, digits12Slash_two c e hc he, hy]
        · exfalso
          simp only [List.length_cons] at hd2
          omega
    · exfalso
      simp only [List.length_cons] at hm2
      omega

/-- C7 (amended): the date formatter maps every Month Day, Year input whose
month word is in the table (full month names and three-letter abbreviations,
any letter case, one- or two-digit day, four-digit year) and every M/D/YYYY
input to zero-padded ISO form, passes every YYYY-MM-DD input through, and
returns every unrecognized input unchanged except for stripping surrounding
whitespace. -/
theorem standardize_date_format_spec :
    standardize_date_format ("January 5, 1984") = "1984-01-05" ∧
    standardize_date_format ("Jan 5, 1984") = "1984-01-05" ∧
    standardize_date_format ("1/5/1984") = "1984-01-05" ∧
    standardize_date_format ("1984-01-05") = "1984-01-05" ∧
    standardize_date_format ("circa 1984") = "circa 1984" ∧
    (∀ w mn : List Char, monthLookup w = some mn →
      ∀ d : List Char, d ≠ [] → d.length ≤ 2 → d.all Char.isDigit = true →
      ∀ y1 y2 y3 y4 : Char, y1.isDigit = true → y2.isDigit = true →
        y3.isDigit = true → y4.isDigit = true →
        standardize_date_format ⟨w ++ ' ' :: (d ++ ',' :: ' ' :: [y1, y2, y3, y4])⟩ =
          ⟨[y1, y2, y3, y4] ++ '-' :: (mn ++ '-' :: zfill2 d)⟩) ∧
    (∀ y1 y2 y3 y4 m1 m2 d1 d2 : Char, y1.isDigit = true → y2.isDigit = true →
        y3.isDigit = true → y4.isDigit = true → m1.isDigit = true →
        m2.isDigit = true → d1.isDigit = true → d2.isDigit = true →
        standardize_date_format ⟨[y1, y2, y3, y4, '-', m1, m2, '-', d1, d2]⟩ =
          ⟨[y1, y2, y3, y4, '-', m1, m2, '-', d1, d2]⟩) ∧
    (∀ m d : List Char, m ≠ [] → m.length ≤ 2 → m.all Char.isDigit = true →
        d ≠ [] → d.length ≤ 2 → d.all Char.isDigit = true →
      ∀ y1 y2 y3 y4 : Char, y1.isDigit = true → y2.isDigit = true →
        y3.isDigit = true → y4.isDigit = true →
        standardize_date_format ⟨m ++ '/' :: (d ++ '/' :: [y1, y2, y3, y4])⟩ =
          ⟨[y1, y2, y3, y4] ++ '-' :: (zfill2 m ++ '-' :: zfill2 d)⟩) ∧
    ∀ s : String, dateRecognized s = false →
      standardize_date_format s = ⟨stripChars s.data⟩ := by
  refine ⟨by decide, by decide, by decide, by decide, by decide,
    fun w mn hm d hd0 hd2 hdd y1 y2 y3 y4 h1 h2 h3 h4 =>
      date_month_eval w mn hm d hd0 hd2 hdd y1 y2 y3 y4 h1 h2 h3 h4,
    fun y1 y2 y3 y4 m1 m2 d1 d2 h1 h2 h3 h4 h5 h6 h7 h8 =>
      date_iso_eval y1 y2 y3 y4 m1 m2 d1 d2 h1 h2 h3 h4 h5 h6 h7 h8,
    fun m d hm0 hm2 hmd hd0 hd2 hdd y1 y2 y3 y4 h1 h2 h3 h4 =>
      date_mdy_eval m d hm0 hm2 hmd hd0 hd2 hdd y1 y2 y3 y4 h1 h2 h3 h4, ?_⟩
  intro s h
  simp only [dateRecognized, Bool.or_eq_false_iff] at h
  obtain ⟨⟨h1, h2⟩, h3⟩ := h
  have h3' : matchMDY (stripChars s.data) = none := by
    cases hd : matchMDY (stripChars s.data)
    · rfl
    · rw [hd] at h3
      simp at h3
  simp only [standardize_date_format]
  cases hm : matchMonthDayYear (stripChars s.data) with
  | none =>
    simp only [h3']
    rw [if_neg (by simp [h2])]
  | some v =>
    obtain ⟨w, d, y⟩ := v
    cases hmw : monthLookup w with
    | some mv =>
      rw [hm] at h1
      simp [hmw] at h1
    | none =>
      simp only [hmw, Option.map_none', h3']
      rw [if_neg (by simp [h2])]

/-- C7 witness: the amended branches applied at concrete inputs: the table
month march with day 7 and year 2001, an ISO-shaped input, a slash date,
and the unrecognized input circa 1984. -/
theorem standardize_date_format_spec_witness :
    monthLookup ("march").data = some ("03").data ∧
    standardize_date_format
        ⟨("march").data ++ ' ' :: (['7'] ++ ',' :: ' ' :: ['2', '0', '0', '1'])⟩ =
      ⟨['2', '0', '0', '1'] ++ '-' :: (("03").data ++ '-' :: zfill2 ['7'])⟩ ∧
    standardize_date_format ⟨['2', '0', '0', '1', '-', '0', '3', '-', '0', '7']⟩ =
      ⟨['2', '0', '0', '1', '-', '0', '3', '-', '0', '7']⟩ ∧
    standardize_date_format ⟨['3'] ++ '/' :: (['7'] ++ '/' :: ['2', '0', '0', '1'])⟩ =
      ⟨['2', '0', '0', '1'] ++ '-' :: (zfill2 ['3'] ++ '-' :: zfill2 ['7'])⟩ ∧
    dateRecognized ("circa 1984") = false ∧
    standardize_date_format ("circa 1984") = ⟨stripChars ("circa 1984").data⟩ :=
  ⟨by decide,
   standardize_date_format_spec.2.2.2.2.2.1 ("march").data ("03").data (by decide)
     (['7']) (by decide) (by decide) (by decide) '2' '0' '0' '1' (by decide)
     (by decide) (by decide) (by decide),
   standardize_date_format_spec.2.2.2.2.2.2.1 '2' '0' '0' '1' '0' '3' '0' '7'
     (by decide) (by decide) (by decide) (by decide) (by decide) (by decide)
     (by decide) (by decide),
   standardize_date_format_spec.2.2.2.2.2.2.2.1 (['3']) (['7']) (by decide)
     (by decide) (by decide) (by decide) (by decide) (by decide) '2' '0' '0' '1'
     (by decide) (by decide) (by decide) (by decide),
   by decide,
   standardize_date_format_spec.2.2.2.2.2.2.2.2 ("circa 1984") (by decide)⟩

/-!
Sanity checks of the embedding on concrete inputs, validated against the
behaviour of the source's regular expressions and dict operations.
-/

example : normalize_name ("LeBron James") = "lebron james" := by decide

example : normalize_name ("LEBRON JAMES") = "lebron james" := by decide

example : normalize_name ("James Worthy Jr.") = "james worthy" := by decide

example : normalize_name ("Jamal Murray") = "jamal murray" := by decide

example : normalize_name ("Shaquille ONeal") = normalize_name ("Shaquille O'Neal") := by decide

example : normalize_name ("j.r") = "jr" := by decide

example : normalize_name ("jr") = "" := by decide

example :
    fuzzy_name_match ("LeBron James")
      ([("Lebron Smith", ["lebron", "smith"]), ("LeBron James X", ["lebron", "james", "x"])])
      (4 / 5) = some ("LeBron James X") := by with_unfolding_all decide

example :
    fuzzy_name_match ("LeBron James") ([("Lebron Smith", ["lebron", "smith"])]) (4 / 5)
      = none := by with_unfolding_all decide

example : format_born_location ("in Akron,  Ohio") = "Akron, Ohio" := by decide

example : format_born_location ("Indiana, USA") = "diana, USA" := by decide

example : standardize_date_format ("January 5, 1984") = "1984-01-05" := by decide

example : standardize_date_format ("Jan 5, 1984") = "1984-01-05" := by decide

example : standardize_date_format ("1/5/1984") = "1984-01-05" := by decide

example : standardize_date_format ("1984-01-05") = "1984-01-05" := by decide

example : standardize_date_format ("circa 1984") = "circa 1984" := by decide

example : standardize_date_format (" circa 1984 ") = "circa 1984" := by decide

example : standardize_height_imperial ("6-Jun") = "6-6" := by decide

example : standardize_height_imperial ("6-6") = "6-6" := by decide

example : standardize_height_imperial ("6") = "6-0" := by decide

example : standardize_height_imperial ("Jul-7") = "7-7" := by decide

example : standardize_height_imperial ("m") = "" := by decide

example : standardize_height_imperial ("a b") = "ab" := by decide

example :
    create_ordered_merged_player_entry
      ([("Name", "LeBron James"), ("Position", "F"), ("Normalized_Name", "lebron james")])
      ([("RK", "1"), ("Player", "LEBRON JAMES"), ("PTS", "38652")]) =
    [("ESPN_Rank", "1"), ("Name", "LeBron James"), ("ESPN_Points", "38652"),
      ("Position", "F")] := by decide

example :
    clean_and_merge_player_data
      (some [[("Name", "LeBron James"), ("Position", "F"),
        ("Born_Location", "in Akron, Ohio"), ("Born_Date", "December 30, 1984"),
        ("NBA_Debut", "October 29, 2003"), ("Height_Imperial", "6-Jun")]])
      (some [[("RK", "1"), ("Player", "LEBRON JAMES"), ("PTS", "38652")]]) =
    ([[("ESPN_Rank", "1"), ("Name", "LeBron James"), ("ESPN_Points", "38652"),
        ("Position", "F"), ("Born_Location", "Akron, Ohio"),
        ("Born_Date", "1984-12-30"), ("NBA_Debut", "2003-10-29"),
        ("Height_Imperial", "6-6")]], [],
      some (MatchStats.mk 1 1 1 0 1 0 100)) := by with_unfolding_all decide

example : standardize_height_imperial ("66") = "6-6" := by decide

example : standardize_height_imperial ("10") = "1-0" := by decide

example : standardize_height_imperial ("123") = "12-3" := by decide

example : searchFtIn ("66").data = some (['6'], ['6']) := by decide

example : standardize_date_format ("March 7, 2001") = "2001-03-07" := by decide

example : standardize_date_format ("SEPTEMBER 30, 1999") = "1999-09-30" := by decide

example : standardize_date_format ("12/31/2000") = "2000-12-31" := by decide
